import Mathlib

/-!
Verification of the PtrHash-style perfect-hash construction of `rust-phf`.

The development shallowly embeds the two source modules:

* `Shared` embeds `src/phf_shared/src/ptrhash.rs` (the lookup side);
* `Gen` embeds `src/phf_generator/src/ptrhash.rs` (the builder side)
  together with the emitter gate of `src/phf_codegen/src/lib.rs`.

Machine integers (`u64`, `u32`, `u16`) are modelled as `Nat` with explicit
`% 2^64`, `% 2^32`, `% 2^16` at the points where the Rust types bound or
truncate values.  Fallible operations (panicking slice indexing, the
`expect` in `build_remap_and_map`, the unbounded seed loop) are modelled
with `Option` (the seed loop takes an explicit fuel).
-/

namespace Shared

/-- Hash values used by the PtrHash-style algorithm: the pair `(h1, h2)`
of 64-bit hashes (`PtrHashes` in `phf_shared/src/ptrhash.rs`). -/
structure PtrHashes where
  h1 : Nat
  h2 : Nat
deriving DecidableEq, Repr

/-- The `splitmix64` mixer of `phf_shared/src/ptrhash.rs`: all arithmetic
is on `u64`, so every operation is reduced `% 2^64`. -/
def splitmix64 (x : Nat) : Nat :=
  let x := (x % 2 ^ 64 + 0x9e3779b97f4a7c15) % 2 ^ 64
  let z := x
  let z := ((z ^^^ (z >>> 30)) * 0xbf58476d1ce4e5b9) % 2 ^ 64
  let z := ((z ^^^ (z >>> 27)) * 0x94d049bb133111eb) % 2 ^ 64
  z ^^^ (z >>> 31)

/-- The `mix_pilot` mixer of `phf_shared/src/ptrhash.rs`:
`splitmix64(seed ^ pilot as u64)` with `pilot : u16` and `seed : u64`. -/
def mix_pilot (pilot seed : Nat) : Nat :=
  splitmix64 ((seed % 2 ^ 64) ^^^ (pilot % 2 ^ 16))

/-- The `fast_reduce` map of `phf_shared/src/ptrhash.rs`:
`((hash as u128 * n as u128) >> 64) as u32` with `hash : u64`, `n : u32`.
The result is `< 2^32` whenever the operands are in their type ranges, so
the final `as u32` cast needs no extra reduction. -/
def fast_reduce (hash n : Nat) : Nat :=
  (hash % 2 ^ 64) * (n % 2 ^ 32) / 2 ^ 64

/-- The `reduce_pow2` map of `phf_shared/src/ptrhash.rs`:
`(hash as u32) & (n - 1)` with `hash : u64`, `n : u32`.  The `n - 1` is a
wrapping `u32` subtraction, hence the `(n + 2^32 - 1) % 2^32` form. -/
def reduce_pow2 (hash n : Nat) : Nat :=
  (hash % 2 ^ 32) &&& ((n % 2 ^ 32 + 2 ^ 32 - 1) % 2 ^ 32)

/-- The lookup function `get_index` of `phf_shared/src/ptrhash.rs`.
The two slice indexings `pilots[bucket]` and `remap[slot - len]` panic in
Rust when out of bounds; they are modelled with `List.get?`, so a panic
becomes `none`. -/
def get_index (hashes : PtrHashes) (key buckets slots : Nat)
    (pilots remap : List Nat) (len : Nat) : Option Nat :=
  if buckets = 0 then
    some 0
  else
    let bucket := fast_reduce hashes.h1 buckets
    match pilots.get? bucket with
    | none => none
    | some pilot =>
      let mixed := (hashes.h2 % 2 ^ 64) ^^^ mix_pilot pilot key
      let slot := reduce_pow2 mixed slots
      if slot < len then some slot else remap.get? (slot - len)

end Shared

namespace Gen

/-- The fixed PRNG seed `FIXED_SEED = 1234567890` of
`phf_generator/src/ptrhash.rs`. -/
def FIXED_SEED : Nat := 1234567890

/-- The bucket size constant `DEFAULT_BUCKET_SIZE = 3`. -/
def DEFAULT_BUCKET_SIZE : Nat := 3

/-- The pilot search bound `MAX_PILOT_TRIES = 8192` of
`phf_generator/src/ptrhash.rs`. -/
def MAX_PILOT_TRIES : Nat := 8192

/-- The builder's copy of `splitmix64` (`phf_generator/src/ptrhash.rs`),
textually identical to `Shared.splitmix64`. -/
def splitmix64 (x : Nat) : Nat :=
  let x := (x % 2 ^ 64 + 0x9e3779b97f4a7c15) % 2 ^ 64
  let z := x
  let z := ((z ^^^ (z >>> 30)) * 0xbf58476d1ce4e5b9) % 2 ^ 64
  let z := ((z ^^^ (z >>> 27)) * 0x94d049bb133111eb) % 2 ^ 64
  z ^^^ (z >>> 31)

/-- The builder's copy of `mix_pilot`. -/
def mix_pilot (pilot seed : Nat) : Nat :=
  splitmix64 ((seed % 2 ^ 64) ^^^ (pilot % 2 ^ 16))

/-- The builder's copy of `fast_reduce`. -/
def fast_reduce (hash n : Nat) : Nat :=
  (hash % 2 ^ 64) * (n % 2 ^ 32) / 2 ^ 64

/-- The builder's copy of `reduce_pow2`. -/
def reduce_pow2 (hash n : Nat) : Nat :=
  (hash % 2 ^ 32) &&& ((n % 2 ^ 32 + 2 ^ 32 - 1) % 2 ^ 32)

/-- The builder's `slot_for` (`phf_generator/src/ptrhash.rs`):
`reduce_pow2(hashes.h2 ^ mix_pilot(pilot, seed), slots)`. -/
def slot_for (hashes : Shared.PtrHashes) (pilot seed slots : Nat) : Nat :=
  reduce_pow2 ((hashes.h2 % 2 ^ 64) ^^^ mix_pilot pilot seed) slots

/-- The solver output `HashState` of `phf_generator/src/ptrhash.rs`. -/
structure HashState where
  key : Nat
  buckets : Nat
  slots : Nat
  pilots : List Nat
  remap : List Nat
  map : List Nat
deriving DecidableEq, Repr

/-- The `bucket_count` sizing function:
`max(1, (len + DEFAULT_BUCKET_SIZE - 1) / DEFAULT_BUCKET_SIZE)`. -/
def bucket_count (len : Nat) : Nat :=
  max ((len + DEFAULT_BUCKET_SIZE - 1) / DEFAULT_BUCKET_SIZE) 1

/-- Doubling loop underlying `next_power_of_two`; the fuel argument only
makes the recursion structural and is always sufficient at the call
site (see `next_power_of_two_spec`). -/
def npt_go (n : Nat) : Nat → Nat → Nat
  | 0, power => power
  | fuel + 1, power => if n ≤ power then power else npt_go n fuel (power * 2)

/-- Rust's `usize::next_power_of_two`: the least power of two that is
`≥ n` (and `1` for `n = 0`); computed by doubling from `1`. -/
def next_power_of_two (n : Nat) : Nat :=
  npt_go n n 1

/-- The `slot_count` sizing function.  The source computes
`((len as f64) / 0.85).ceil() as usize`; the division by the constant
`0.85 = 17/20` is modelled by the exact rational ceiling
`⌈20 * len / 17⌉ = (20 * len + 16) / 17`, which agrees with the `f64`
computation for every list length that fits in memory (the quotient is
more than a thousand ulps away from the rounding boundary except when
`17 ∣ 20 * len`, where the `f64` quotient rounds to the exact integer). -/
def slot_count (len : Nat) : Nat :=
  let target := (20 * len + 16) / 17
  let target := max target (max len 1)
  next_power_of_two target

/-- Ascending range `start, start+1, ...` of the given length, built
head-first (equal to `List.range'`, see `range_from_eq`). -/
def range_from (start : Nat) : Nat → List Nat
  | 0 => []
  | k + 1 => start :: range_from (start + 1) k

/-- The pilot values tried for every bucket: the Rust loop is
`for pilot in 0..=MAX_PILOT_TRIES`, i.e. the inclusive range
`0, 1, ..., 8192`. -/
def pilot_tries : List Nat :=
  range_from 0 (MAX_PILOT_TRIES + 1)

/-- Insertion step of a stable ascending sort: the new element goes in
front of the first element it compares `≤` to, so elements with equal
keys keep their original relative order. -/
def insert_by (le : Nat → Nat → Bool) (x : Nat) : List Nat → List Nat
  | [] => [x]
  | y :: ys => if le x y then x :: y :: ys else y :: insert_by le x ys

/-- Stable ascending insertion sort; produces the same list as Rust's
stable `sort_by_key` (a stable sort's output is uniquely determined by
the comparator and the input order). -/
def sort_by (le : Nat → Nat → Bool) : List Nat → List Nat
  | [] => []
  | x :: xs => insert_by le x (sort_by le xs)

/-- One pilot attempt for one bucket: the inner `for &key_idx in keys`
loop of `try_generate`.  Returns the `failed` flag, the mutated
`try_map`, and the accumulated `values_to_add` pairs `(slot, key_idx)`
(the first component of the result is `true` when the attempt did not
fail).  `try_map` entries equal to the current `generation` mark slots
tentatively taken inside this attempt. -/
def attempt (hashes : List Shared.PtrHashes) (slotsMap : List (Option Nat))
    (seed slots pilot gen : Nat) :
    List Nat → List Nat → Bool × List Nat × List (Nat × Nat)
  | [], tryMap => (true, tryMap, [])
  | k :: ks, tryMap =>
    if (slotsMap.getD (slot_for (hashes.getD k ⟨0, 0⟩) pilot seed slots) none).isSome
        ∨ tryMap.getD (slot_for (hashes.getD k ⟨0, 0⟩) pilot seed slots) 0 = gen then
      (false, tryMap, [])
    else
      match attempt hashes slotsMap seed slots pilot gen ks
          (tryMap.set (slot_for (hashes.getD k ⟨0, 0⟩) pilot seed slots) gen) with
      | (b, tm, vals) =>
        (b, tm, (slot_for (hashes.getD k ⟨0, 0⟩) pilot seed slots, k) :: vals)

/-- The pilot search for one bucket: the `for pilot in 0..=MAX_PILOT_TRIES`
loop of `try_generate`.  The generation counter is incremented (wrapping
on `u64`) before each attempt; a successful attempt returns the chosen
pilot, the mutated `try_map`, the new generation and the tentative
assignments; exhausting the pilot list returns `none` (the
`return None` of the source). -/
def find_pilot (hashes : List Shared.PtrHashes) (slotsMap : List (Option Nat))
    (seed slots : Nat) (keys : List Nat) :
    List Nat → List Nat → Nat → Option (Nat × List Nat × Nat × List (Nat × Nat))
  | [], _, _ => none
  | p :: ps, tryMap, gen =>
    match attempt hashes slotsMap seed slots p ((gen + 1) % 2 ^ 64) keys tryMap with
    | (ok, tm, vals) =>
      if ok ∧ vals.length = keys.length then
        some (p, tm, (gen + 1) % 2 ^ 64, vals)
      else
        find_pilot hashes slotsMap seed slots keys ps tm ((gen + 1) % 2 ^ 64)

/-- Committing a successful attempt: the
`for &(slot, key_idx) in &values_to_add { slots_map[slot] = Some(key_idx) }`
loop of `try_generate`. -/
def commit (slotsMap : List (Option Nat)) (vals : List (Nat × Nat)) :
    List (Option Nat) :=
  vals.foldl (fun sm sv => sm.set sv.1 (some sv.2)) slotsMap

/-- The outer `'buckets: for bucket in bucket_order` loop of
`try_generate`, threading `pilots`, `slots_map`, `try_map` and
`generation`.  Empty buckets are skipped; a bucket whose pilot search
fails aborts the whole attempt (`return None`). -/
def bucket_loop (hashes : List Shared.PtrHashes) (bucketsVec : List (List Nat))
    (seed slots : Nat) :
    List Nat → List Nat → List (Option Nat) → List Nat → Nat →
    Option (List Nat × List (Option Nat))
  | [], pilots, slotsMap, _, _ => some (pilots, slotsMap)
  | b :: bs, pilots, slotsMap, tryMap, gen =>
    if (bucketsVec.getD b []).isEmpty then
      bucket_loop hashes bucketsVec seed slots bs pilots slotsMap tryMap gen
    else
      match find_pilot hashes slotsMap seed slots (bucketsVec.getD b [])
          pilot_tries tryMap gen with
      | none => none
      | some (p, tm, g, vals) =>
        bucket_loop hashes bucketsVec seed slots bs (pilots.set b p)
          (commit slotsMap vals) tm g

/-- The bucket assignment loop of `try_generate`: key index `i` is pushed
onto `buckets_vec[fast_reduce(h1_i, buckets_u32)]`, so bucket `b` holds,
in increasing order, exactly the indices whose `h1` reduces to `b`. -/
def buckets_vec (hashes : List Shared.PtrHashes) (buckets bucketsU32 : Nat) :
    List (List Nat) :=
  (List.range buckets).map fun b =>
    (List.range hashes.length).filter fun i =>
      fast_reduce (hashes.getD i ⟨0, 0⟩).h1 bucketsU32 = b

/-- The per-slot `used` flags, `free` slot list and `remap` filling loop
of `build_remap_and_map`: walk the overflow slots `len, ..., slots - 1` in
order; an assigned overflow slot takes the next free dense slot (if the
free iterator still has one), an unassigned one leaves its remap entry
untouched. -/
def remap_loop (slotsMap : List (Option Nat)) (len : Nat) :
    List Nat → List Nat → List Nat → List Nat
  | [], remap, _ => remap
  | s :: ss, remap, free =>
    if (slotsMap.getD s none).isSome then
      match free with
      | [] => remap_loop slotsMap len ss remap []
      | f :: fs => remap_loop slotsMap len ss (remap.set (s - len) f) fs
    else
      remap_loop slotsMap len ss remap free

/-- The `map` filling loop of `build_remap_and_map`: for every assigned
slot `s` holding input index `e`, write `e` at dense index
`s` (if `s < len`) or `remap[s - len]` (otherwise). -/
def map_loop (remap : List Nat) (len : Nat) :
    List (Nat × Option Nat) → List (Option Nat) → List (Option Nat)
  | [], m => m
  | (_, none) :: rest, m => map_loop remap len rest m
  | (slot, some entryIdx) :: rest, m =>
    map_loop remap len rest
      (m.set (if slot < len then slot else remap.getD (slot - len) 0) (some entryIdx))

/-- Collect a list of options into an optional list; `none` as soon as
one entry is missing.  Models the
`map.into_iter().map(|idx| idx.expect(..)).collect()` of
`build_remap_and_map`: a `none` result is the panic of the `expect`. -/
def list_all_some {α : Type} : List (Option α) → Option (List α)
  | [] => some []
  | none :: _ => none
  | some a :: rest => (list_all_some rest).map (a :: ·)

/-- The `build_remap_and_map` function of `phf_generator/src/ptrhash.rs`.
The `free` list is the ascending list of unassigned dense slots (the
source materialises the `used` bit vector first; filtering
`slots_map` directly over `0..len` yields the same list).  The second
component is `none` exactly when the final `expect` would panic. -/
def build_remap_and_map (slotsMap : List (Option Nat)) (len : Nat) :
    List Nat × Option (List Nat) :=
  let slots := slotsMap.length
  let free := (List.range len).filter fun s => ¬ (slotsMap.getD s none).isSome
  let remap := remap_loop slotsMap len (List.range' len (slots - len))
    (List.replicate (slots - len) 0) free
  let m := map_loop remap len slotsMap.enum (List.replicate len none)
  (remap, list_all_some m)

/-- The body of `try_generate` for one seed. -/
def try_generate {T : Type} (hash_fn : T → Nat → Shared.PtrHashes)
    (entries : List T) (seed : Nat) : Option HashState :=
  let len := entries.length
  let buckets := bucket_count len
  let slots := slot_count len
  let slotsU32 := slots % 2 ^ 32
  let bucketsU32 := buckets % 2 ^ 32
  let hashes := entries.map fun e => hash_fn e seed
  let bv := buckets_vec hashes buckets bucketsU32
  let bucketOrder :=
    (sort_by (fun a b => (bv.getD a []).length ≤ (bv.getD b []).length)
      (List.range buckets)).reverse
  match bucket_loop hashes bv seed slotsU32 bucketOrder
      (List.replicate buckets 0) (List.replicate slots none)
      (List.replicate slots 0) 0 with
  | none => none
  | some (pilots, slotsMap) =>
    match build_remap_and_map slotsMap len with
    | (_, none) => none
    | (remap, some m) =>
      some ⟨seed % 2 ^ 64, bucketsU32, slotsU32, pilots, remap, m⟩

/-- Modelled from the spec: the seed sequence drawn from the external
`fastrand::Rng` (not part of this repository's sources).  Per the spec it
is a deterministic splitmix-style PRNG seeded with the fixed constant
`1234567890`; the i-th draw is modelled as `splitmix64` of the seeded
state advanced `i` golden-ratio steps. -/
def seed_stream (i : Nat) : Nat :=
  splitmix64 ((FIXED_SEED + i * 0x9e3779b97f4a7c15) % 2 ^ 64)

/-- The seed retry loop of `generate_ptrhash_with_hashes`:
`iter::repeat_with(|| rng.u64(..)).find_map(|seed| try_generate(..))`.
The Rust loop is unbounded; here it takes an explicit fuel, so a run that
would search longer returns `none`. -/
def seed_loop {T : Type} (hash_fn : T → Nat → Shared.PtrHashes)
    (entries : List T) : Nat → Nat → Option HashState
  | 0, _ => none
  | fuel + 1, i =>
    match try_generate hash_fn entries (seed_stream i) with
    | some st => some st
    | none => seed_loop hash_fn entries fuel (i + 1)

/-- The `generate_ptrhash_with_hashes` entry of
`phf_generator/src/ptrhash.rs`: the empty input returns the all-zero
state immediately; otherwise seeds are drawn from the fixed-seed PRNG
until `try_generate` succeeds. -/
def generate_ptrhash_with_hashes {T : Type}
    (hash_fn : T → Nat → Shared.PtrHashes) (fuel : Nat)
    (entries : List T) : Option HashState :=
  if entries.isEmpty then
    some ⟨0, 0, 0, [], [], []⟩
  else
    seed_loop hash_fn entries fuel 0

/-- The public `generate_hash` entry (which delegates to
`generate_ptrhash_with_hashes` with the shared SipHash-1-3 hasher; the
hasher lives in the external `siphasher` crate, so it stays a
parameter here). -/
def generate_hash {T : Type} (hash_fn : T → Nat → Shared.PtrHashes)
    (fuel : Nat) (entries : List T) : Option HashState :=
  generate_ptrhash_with_hashes hash_fn fuel entries

/-- The public `generate_hash_with_hash_fn` entry, which passes the
caller's hash function through unchanged. -/
def generate_hash_with_hash_fn {T : Type}
    (hash_fn : T → Nat → Shared.PtrHashes) (fuel : Nat)
    (entries : List T) : Option HashState :=
  generate_ptrhash_with_hashes hash_fn fuel entries

end Gen

namespace Codegen

/-- The duplicate scan of `Map::build` in `src/phf_codegen/src/lib.rs`:
keys are inserted in order into a set; the first key whose insertion
fails is reported.  `seen` is the set of already-inserted keys. -/
def find_dup {K : Type} [DecidableEq K] : List K → List K → Option K
  | _, [] => none
  | seen, k :: ks => if k ∈ seen then some k else find_dup (k :: seen) ks

/-- The `Map::build` gate of `src/phf_codegen/src/lib.rs`: on a duplicate
key it panics (modelled as `Except.error` carrying the offending key)
before the solver runs; otherwise it calls `phf_generator::generate_hash`
on the keys exactly once.  The second component counts the solver
invocations performed. -/
def map_build {K : Type} [DecidableEq K]
    (hash_fn : K → Nat → Shared.PtrHashes) (fuel : Nat) (keys : List K) :
    Except K (Option Gen.HashState) × Nat :=
  match find_dup [] keys with
  | some k => (Except.error k, 0)
  | none => (Except.ok (Gen.generate_hash hash_fn fuel keys), 1)

end Codegen

namespace Aux

/-! Generic list helpers used throughout the development. -/

theorem getD_set_self {α : Type} (l : List α) (i : Nat) (a d : α)
    (h : i < l.length) : (l.set i a).getD i d = a := by
  simp [List.getD_eq_getElem?_getD, List.getElem?_set_self, h]

theorem getD_set_ne {α : Type} (l : List α) (i j : Nat) (a d : α)
    (h : i ≠ j) : (l.set i a).getD j d = l.getD j d := by
  simp [List.getD_eq_getElem?_getD, List.getElem?_set_ne, h]

theorem getD_replicate {α : Type} (n i : Nat) (a d : α) (h : i < n) :
    (List.replicate n a).getD i d = a := by
  simp [List.getD_eq_getElem?_getD, List.getElem?_replicate, h]

theorem getD_of_le {α : Type} (l : List α) (i : Nat) (d : α)
    (h : l.length ≤ i) : l.getD i d = d := by
  rw [List.getD_eq_getElem?_getD, List.getElem?_eq_none h]; rfl

theorem getD_mem {α : Type} (l : List α) (i : Nat) (d : α)
    (h : i < l.length) : l.getD i d ∈ l := by
  rw [List.getD_eq_getElem?_getD, List.getElem?_eq_getElem h]
  exact List.getElem_mem h

theorem mem_getD {α : Type} (l : List α) (a : α) (d : α) (h : a ∈ l) :
    ∃ i, i < l.length ∧ l.getD i d = a := by
  obtain ⟨⟨i, hi⟩, hg⟩ := List.mem_iff_get.mp h
  exact ⟨i, hi, by rw [List.getD_eq_getElem?_getD, List.getElem?_eq_getElem hi]; simpa using hg⟩

theorem getD_map {α β : Type} (l : List α) (f : α → β) (i : Nat)
    (h : i < l.length) (d : β) : (l.map f).getD i d = f (l.get ⟨i, h⟩) := by
  rw [List.getD_eq_getElem?_getD, List.getElem?_map, List.getElem?_eq_getElem h]
  simp

theorem get?_eq_getD {α : Type} (l : List α) (i : Nat) (d : α)
    (h : i < l.length) : l.get? i = some (l.getD i d) := by
  rw [List.get?_eq_get h, List.getD_eq_getElem?_getD, List.getElem?_eq_getElem h]
  rfl

theorem getD_eq_get {α : Type} (l : List α) (i : Nat) (d : α)
    (h : i < l.length) : l.getD i d = l.get ⟨i, h⟩ := by
  rw [List.getD_eq_getElem?_getD, List.getElem?_eq_getElem h]
  rfl

/-- Positional reading of `List.enum` membership. -/
theorem mem_enum_getD {α : Type} (l : List α) (s : Nat) (e : α) (d : α)
    (h : (s, e) ∈ l.enum) : s < l.length ∧ l.getD s d = e := by
  rw [List.mem_enum_iff_getElem?] at h
  have hs : s < l.length := by
    by_contra hc
    rw [List.getElem?_eq_none (Nat.le_of_not_lt hc)] at h
    exact Option.noConfusion h
  refine ⟨hs, ?_⟩
  rw [List.getD_eq_getElem?_getD, h]
  rfl

theorem enum_getD_mem {α : Type} (l : List α) (s : Nat) (d : α)
    (h : s < l.length) : (s, l.getD s d) ∈ l.enum := by
  rw [List.mem_enum_iff_getElem?, List.getElem?_eq_getElem h,
    List.getD_eq_getElem?_getD, List.getElem?_eq_getElem h]
  rfl

/-- In a list of options whose present values are pairwise distinct, the
same value cannot sit at two distinct positions. -/
theorem filterMap_nodup_inj (l : List (Option Nat))
    (hn : (l.filterMap id).Nodup) :
    ∀ s s' j, l.getD s none = some j → l.getD s' none = some j → s = s' := by
  induction l with
  | nil =>
    intro s s' j h _
    rw [getD_of_le _ _ _ (Nat.zero_le s)] at h
    exact Option.noConfusion h
  | cons o t ih =>
    intro s s' j h h'
    have hmem : ∀ k (jj : Nat), t.getD k none = some jj → jj ∈ t.filterMap id := by
      intro k jj hk
      have hkl : k < t.length := by
        by_contra hc
        rw [getD_of_le _ _ _ (Nat.le_of_not_lt hc)] at hk
        exact Option.noConfusion hk
      refine List.mem_filterMap.mpr ⟨some jj, ?_, rfl⟩
      have hm := getD_mem t k none hkl
      rwa [hk] at hm
    match s, s' with
    | 0, 0 => rfl
    | 0, k + 1 =>
      exfalso
      simp only [List.getD_cons_zero] at h
      simp only [List.getD_cons_succ] at h'
      subst h
      have hfc : (some j :: t).filterMap id = j :: t.filterMap id := by
        simp [List.filterMap_cons]
      rw [hfc, List.nodup_cons] at hn
      exact hn.1 (hmem _ _ h')
    | k + 1, 0 =>
      exfalso
      simp only [List.getD_cons_zero] at h'
      simp only [List.getD_cons_succ] at h
      subst h'
      have hfc : (some j :: t).filterMap id = j :: t.filterMap id := by
        simp [List.filterMap_cons]
      rw [hfc, List.nodup_cons] at hn
      exact hn.1 (hmem _ _ h)
    | k + 1, k' + 1 =>
      simp only [List.getD_cons_succ] at h h'
      have hnt : (t.filterMap id).Nodup := by
        match o with
        | none => simpa [List.filterMap_cons] using hn
        | some a => exact ((List.nodup_cons.mp (by simpa [List.filterMap_cons] using hn))).2
      exact congrArg (· + 1) (ih hnt k k' j h h')

/-- Zipping two duplicate-free lists pairs distinct left elements with
distinct right elements. -/
theorem zip_inj_of_nodup {α β : Type} (l₁ : List α) (l₂ : List β)
    (h₁ : l₁.Nodup) (h₂ : l₂.Nodup) :
    ∀ a b a' b', (a, b) ∈ l₁.zip l₂ → (a', b') ∈ l₁.zip l₂ →
      a ≠ a' → b ≠ b' := by
  induction l₁ generalizing l₂ with
  | nil => intro a b a' b' h; simp [List.zip] at h
  | cons x t ih =>
    intro a b a' b' ha ha' hne
    match l₂ with
    | [] => simp [List.zip] at ha
    | y :: t₂ =>
      simp only [List.zip_cons_cons, List.mem_cons] at ha ha'
      rcases ha with h1 | h1 <;> rcases ha' with h2 | h2
      · exact absurd ((Prod.mk.inj h1).1.trans (Prod.mk.inj h2).1.symm) hne
      · intro hbe
        have hb'm : b' ∈ t₂ := (List.of_mem_zip h2).2
        rw [← hbe, (Prod.mk.inj h1).2] at hb'm
        exact (List.nodup_cons.mp h₂).1 hb'm
      · intro hbe
        have hbm : b ∈ t₂ := (List.of_mem_zip h1).2
        rw [hbe, (Prod.mk.inj h2).2] at hbm
        exact (List.nodup_cons.mp h₂).1 hbm
      · exact ih t₂ (List.nodup_cons.mp h₁).2 (List.nodup_cons.mp h₂).2 a b a' b' h1 h2 hne

/-- Every element of the shorter right list is hit when zipping lists of
equal length. -/
theorem zip_snd_surj {α β : Type} (l₁ : List α) (l₂ : List β)
    (h : l₁.length = l₂.length) (b : β) (hb : b ∈ l₂) :
    ∃ a, (a, b) ∈ l₁.zip l₂ := by
  have hmap : (l₁.zip l₂).map Prod.snd = l₂ := List.map_snd_zip l₁ l₂ h.ge
  rw [← hmap] at hb
  obtain ⟨⟨a, b'⟩, hm, he⟩ := List.mem_map.mp hb
  cases he
  exact ⟨a, hm⟩

theorem list_all_some_eq {α : Type} (l : List (Option α)) (r : List α)
    (h : Gen.list_all_some l = some r) : l = r.map some := by
  induction l generalizing r with
  | nil => simp [Gen.list_all_some] at h; simp [← h]
  | cons o t ih =>
    match o with
    | none => simp [Gen.list_all_some] at h
    | some a =>
      simp only [Gen.list_all_some, Option.map_eq_some'] at h
      obtain ⟨r', hr', he⟩ := h
      simpa [← he] using ih r' hr'

theorem list_all_some_of_forall {α : Type} (l : List (Option α))
    (h : ∀ x ∈ l, x.isSome) : ∃ r, Gen.list_all_some l = some r := by
  induction l with
  | nil => exact ⟨[], rfl⟩
  | cons o t ih =>
    obtain ⟨r, hr⟩ := ih fun x hx => h x (List.mem_cons_of_mem _ hx)
    match o, h o (List.mem_cons_self _ _) with
    | some a, _ => exact ⟨a :: r, by simp [Gen.list_all_some, hr]⟩

/-! Bounds on the integer mixers. -/

theorem splitmix64_lt (x : Nat) : Gen.splitmix64 x < 2 ^ 64 := by
  unfold Gen.splitmix64
  have hb : ∀ a : Nat, a % 2 ^ 64 < 2 ^ 64 := fun a => Nat.mod_lt _ (by norm_num)
  have hs : ∀ a k : Nat, a < 2 ^ 64 → a >>> k < 2 ^ 64 := by
    intro a k ha
    rw [Nat.shiftRight_eq_div_pow]
    exact Nat.lt_of_le_of_lt (Nat.div_le_self _ _) ha
  exact Nat.xor_lt_two_pow (hb _) (hs _ _ (hb _))

theorem fast_reduce_lt (h n : Nat) (hn : 0 < n) (hn32 : n < 2 ^ 32) :
    Gen.fast_reduce h n < n := by
  unfold Gen.fast_reduce
  rw [Nat.mod_eq_of_lt hn32]
  have h1 : h % 2 ^ 64 < 2 ^ 64 := Nat.mod_lt _ (by norm_num)
  have : h % 2 ^ 64 * n < 2 ^ 64 * n := by
    exact Nat.mul_lt_mul_of_lt_of_le h1 (Nat.le_refl n) hn
  exact Nat.div_lt_of_lt_mul (by omega)

theorem reduce_pow2_lt (h n : Nat) (hn : 0 < n) (hn32 : n < 2 ^ 32) :
    Gen.reduce_pow2 h n < n := by
  unfold Gen.reduce_pow2
  rw [Nat.mod_eq_of_lt hn32]
  have hmask : (n + 2 ^ 32 - 1) % 2 ^ 32 = n - 1 := by
    have : n + 2 ^ 32 - 1 = (n - 1) + 1 * 2 ^ 32 := by omega
    rw [this, Nat.add_mul_mod_self_right, Nat.mod_eq_of_lt (by omega)]
  rw [hmask]
  exact Nat.lt_of_le_of_lt Nat.and_le_right (by omega)

theorem slot_for_lt (hsh : Shared.PtrHashes) (p seed n : Nat) (hn : 0 < n)
    (hn32 : n < 2 ^ 32) : Gen.slot_for hsh p seed n < n :=
  reduce_pow2_lt _ n hn hn32

end Aux

namespace Gen

/-! Soundness of the inner pilot attempt. -/

theorem attempt_tryMap_length (hashes : List Shared.PtrHashes)
    (slotsMap : List (Option Nat)) (seed slots pilot gen : Nat) :
    ∀ ks tm, ((attempt hashes slotsMap seed slots pilot gen ks tm).2.1).length
      = tm.length := by
  intro ks
  induction ks with
  | nil => intro tm; rfl
  | cons k t ih =>
    intro tm
    unfold attempt
    split
    · rfl
    · simpa [List.length_set] using ih (tm.set _ gen)

/-- What a successful attempt guarantees: the tentative assignments are
exactly the bucket's keys paired with their pilot slots, those slots are
free in `slots_map`, were not tagged with the current generation on
entry, and are pairwise distinct. -/
theorem attempt_sound (hashes : List Shared.PtrHashes)
    (slotsMap : List (Option Nat)) (seed slots pilot gen : Nat) :
    ∀ ks tm tm' vals,
      (∀ k, slot_for (hashes.getD k ⟨0, 0⟩) pilot seed slots < tm.length) →
      attempt hashes slotsMap seed slots pilot gen ks tm = (true, tm', vals) →
      vals = ks.map (fun k => (slot_for (hashes.getD k ⟨0, 0⟩) pilot seed slots, k)) ∧
      (∀ k ∈ ks, slotsMap.getD (slot_for (hashes.getD k ⟨0, 0⟩) pilot seed slots) none = none) ∧
      (∀ k ∈ ks, tm.getD (slot_for (hashes.getD k ⟨0, 0⟩) pilot seed slots) 0 ≠ gen) ∧
      (ks.map (fun k => slot_for (hashes.getD k ⟨0, 0⟩) pilot seed slots)).Nodup := by
  intro ks
  induction ks with
  | nil =>
    intro tm tm' vals _ h
    obtain ⟨-, h2⟩ := Prod.mk.inj h
    obtain ⟨rfl, hv⟩ := Prod.mk.inj h2
    refine ⟨by simp [← hv], by simp, by simp, by simp [← hv]⟩
  | cons k t ih =>
    intro tm tm' vals hb h
    unfold attempt at h
    split at h
    · exact absurd (Prod.mk.inj h).1 (by simp)
    · rename_i hcond
      push_neg at hcond
      obtain ⟨hfree, hgen⟩ := hcond
      have hfree' : slotsMap.getD (slot_for (hashes.getD k ⟨0, 0⟩) pilot seed slots) none = none :=
        Option.not_isSome_iff_eq_none.mp (by simpa using hfree)
      rcases hr : attempt hashes slotsMap seed slots pilot gen t
          (tm.set (slot_for (hashes.getD k ⟨0, 0⟩) pilot seed slots) gen) with ⟨b, tmr, valsr⟩
      rw [hr] at h
      obtain ⟨hb1, h2⟩ := Prod.mk.inj h
      obtain ⟨htm, hvals⟩ := Prod.mk.inj h2
      subst hb1
      have hbset : ∀ kk, slot_for (hashes.getD kk ⟨0, 0⟩) pilot seed slots
          < (tm.set (slot_for (hashes.getD k ⟨0, 0⟩) pilot seed slots) gen).length := by
        intro kk; simpa [List.length_set] using hb kk
      obtain ⟨ihv, ihfree, ihgen, ihnd⟩ := ih _ tmr valsr hbset hr
      have htail_ne : ∀ kk ∈ t,
          slot_for (hashes.getD kk ⟨0, 0⟩) pilot seed slots
            ≠ slot_for (hashes.getD k ⟨0, 0⟩) pilot seed slots := by
        intro kk hkk heq
        have := ihgen kk hkk
        rw [heq, Aux.getD_set_self _ _ _ _ (hb k)] at this
        exact this rfl
      refine ⟨?_, ?_, ?_, ?_⟩
      · rw [← hvals, ihv]; rfl
      · intro kk hkk
        rcases List.mem_cons.mp hkk with rfl | hmem
        · exact hfree'
        · exact ihfree kk hmem
      · intro kk hkk
        rcases List.mem_cons.mp hkk with rfl | hmem
        · exact hgen
        · have := ihgen kk hmem
          rwa [Aux.getD_set_ne _ _ _ _ _ (fun he => htail_ne kk hmem (he.symm))] at this
      · rw [List.map_cons, List.nodup_cons]
        exact ⟨fun hmem => by
          obtain ⟨kk, hkk, he⟩ := List.mem_map.mp hmem
          exact htail_ne kk hkk he, ihnd⟩

/-- What a successful pilot search guarantees: the chosen pilot is one of
the tried values and its attempt succeeded. -/
theorem find_pilot_sound (hashes : List Shared.PtrHashes)
    (slotsMap : List (Option Nat)) (seed slots : Nat) (keys : List Nat) :
    ∀ ps tm gen p tm2 g2 vals,
      (∀ k pp, slot_for (hashes.getD k ⟨0, 0⟩) pp seed slots < tm.length) →
      find_pilot hashes slotsMap seed slots keys ps tm gen = some (p, tm2, g2, vals) →
      p ∈ ps ∧ tm2.length = tm.length ∧
      vals = keys.map (fun k => (slot_for (hashes.getD k ⟨0, 0⟩) p seed slots, k)) ∧
      (∀ k ∈ keys, slotsMap.getD (slot_for (hashes.getD k ⟨0, 0⟩) p seed slots) none = none) ∧
      (keys.map (fun k => slot_for (hashes.getD k ⟨0, 0⟩) p seed slots)).Nodup := by
  intro ps
  induction ps with
  | nil => intro tm gen p tm2 g2 vals _ h; exact absurd h (by simp [find_pilot])
  | cons p0 pt ih =>
    intro tm gen p tm2 g2 vals hb h
    unfold find_pilot at h
    rcases hr : attempt hashes slotsMap seed slots p0 ((gen + 1) % 2 ^ 64) keys tm
      with ⟨b, tmr, valsr⟩
    rw [hr] at h
    dsimp only at h
    have hlen : tmr.length = tm.length := by
      have := attempt_tryMap_length hashes slotsMap seed slots p0
        ((gen + 1) % 2 ^ 64) keys tm
      rwa [hr] at this
    split at h
    · rename_i hcond
      obtain ⟨hb1, -⟩ := hcond
      subst hb1
      obtain ⟨rfl, h2⟩ := Prod.mk.inj (Option.some.inj h)
      obtain ⟨rfl, h3⟩ := Prod.mk.inj h2
      obtain ⟨-, rfl⟩ := Prod.mk.inj h3
      obtain ⟨hv, hfree, -, hnd⟩ := attempt_sound hashes slotsMap seed slots p0
        ((gen + 1) % 2 ^ 64) keys tm tmr valsr (fun k => hb k p0) hr
      exact ⟨List.mem_cons_self _ _, hlen, hv, hfree, hnd⟩
    · obtain ⟨hmem, hlen2, hrest⟩ := ih tmr ((gen + 1) % 2 ^ 64) p tm2 g2 vals
        (fun k pp => hlen ▸ hb k pp) h
      exact ⟨List.mem_cons_of_mem _ hmem, hlen ▸ hlen2, hrest⟩

/-! Behaviour of committing the tentative assignments. -/

theorem commit_length (sm : List (Option Nat)) :
    ∀ vals, (commit sm vals).length = sm.length := by
  suffices h : ∀ vals (sm' : List (Option Nat)), (commit sm' vals).length = sm'.length by
    intro vals; exact h vals sm
  intro vals
  induction vals with
  | nil => intro sm'; rfl
  | cons v t ih => intro sm'; simpa [commit, List.length_set] using ih (sm'.set v.1 (some v.2))

theorem commit_getD_notin (sm : List (Option Nat)) :
    ∀ vals s, s ∉ vals.map Prod.fst →
      (commit sm vals).getD s none = sm.getD s none := by
  suffices h : ∀ vals (sm' : List (Option Nat)) s, s ∉ vals.map Prod.fst →
      (commit sm' vals).getD s none = sm'.getD s none by
    intro vals s hs; exact h vals sm s hs
  intro vals
  induction vals with
  | nil => intro sm' s _; rfl
  | cons v t ih =>
    intro sm' s hs
    rw [List.map_cons, List.mem_cons, not_or] at hs
    have : (commit (sm'.set v.1 (some v.2)) t).getD s none
        = (sm'.set v.1 (some v.2)).getD s none := ih _ s hs.2
    rw [show commit sm' (v :: t) = commit (sm'.set v.1 (some v.2)) t from rfl, this,
      Aux.getD_set_ne _ _ _ _ _ (fun he => hs.1 he.symm)]

theorem commit_getD_mem (sm : List (Option Nat)) :
    ∀ vals s k, (vals.map Prod.fst).Nodup → (s, k) ∈ vals → s < sm.length →
      (commit sm vals).getD s none = some k := by
  suffices h : ∀ vals (sm' : List (Option Nat)) s k, (vals.map Prod.fst).Nodup →
      (s, k) ∈ vals → s < sm'.length → (commit sm' vals).getD s none = some k by
    intro vals s k h1 h2 h3; exact h vals sm s k h1 h2 h3
  intro vals
  induction vals with
  | nil => intro sm' s k _ hm; exact absurd hm (by simp)
  | cons v t ih =>
    intro sm' s k hnd hm hlt
    rw [List.map_cons, List.nodup_cons] at hnd
    rcases List.mem_cons.mp hm with rfl | hmem
    · rw [show commit sm' ((s, k) :: t) = commit (sm'.set s (some k)) t from rfl,
        commit_getD_notin _ t s (by simpa using hnd.1),
        Aux.getD_set_self _ _ _ _ hlt]
    · exact ih (sm'.set v.1 (some v.2)) s k hnd.2 hmem (by simpa [List.length_set] using hlt)

theorem commit_getD_cases (sm : List (Option Nat)) :
    ∀ vals s j, (∀ q ∈ vals, Prod.fst q < sm.length) →
      (commit sm vals).getD s none = some j →
      (s, j) ∈ vals ∨ sm.getD s none = some j := by
  suffices h : ∀ vals (sm' : List (Option Nat)) s j,
      (∀ q ∈ vals, Prod.fst q < sm'.length) →
      (commit sm' vals).getD s none = some j →
      (s, j) ∈ vals ∨ sm'.getD s none = some j by
    intro vals s j h1 h2; exact h vals sm s j h1 h2
  intro vals
  induction vals with
  | nil => intro sm' s j _ h; exact Or.inr h
  | cons v t ih =>
    intro sm' s j hb h
    rw [show commit sm' (v :: t) = commit (sm'.set v.1 (some v.2)) t from rfl] at h
    rcases ih (sm'.set v.1 (some v.2)) s j
        (fun q hq => by simpa [List.length_set] using hb q (List.mem_cons_of_mem _ hq)) h with
      hmem | hold
    · exact Or.inl (List.mem_cons_of_mem _ hmem)
    · by_cases hse : s = v.1
      · subst hse
        rw [Aux.getD_set_self _ _ _ _ (hb v (List.mem_cons_self _ _))] at hold
        exact Or.inl (List.mem_cons.mpr (Or.inl (by
          obtain ⟨rfl⟩ := Option.some.inj hold; rfl)))
      · exact Or.inr (by rwa [Aux.getD_set_ne _ _ _ _ _ (fun he => hse he.symm)] at hold)

/-- The bucket a key index is routed to (abbreviates the
`fast_reduce(h.h1, buckets_u32)` expression of the source). -/
def bucket_of (hashes : List Shared.PtrHashes) (buckets i : Nat) : Nat :=
  fast_reduce (hashes.getD i ⟨0, 0⟩).h1 buckets

/-- The slot a key index is sent to under a pilot (abbreviates the
`slot_for(&hashes[key_idx], pilot, seed, slots)` expression). -/
def slot_of (hashes : List Shared.PtrHashes) (seed slots p i : Nat) : Nat :=
  slot_for (hashes.getD i ⟨0, 0⟩) p seed slots

theorem bucket_of_lt (hashes : List Shared.PtrHashes) (buckets i : Nat)
    (hb0 : 0 < buckets) (hb32 : buckets < 2 ^ 32) :
    bucket_of hashes buckets i < buckets :=
  Aux.fast_reduce_lt _ _ hb0 hb32

theorem slot_of_lt (hashes : List Shared.PtrHashes) (seed slots p i : Nat)
    (hs0 : 0 < slots) (hs32 : slots < 2 ^ 32) :
    slot_of hashes seed slots p i < slots :=
  Aux.slot_for_lt _ _ _ _ hs0 hs32

theorem mem_buckets_vec (hashes : List Shared.PtrHashes) (buckets : Nat)
    (hb0 : 0 < buckets) (hb32 : buckets < 2 ^ 32) (i b : Nat) :
    i ∈ (buckets_vec hashes buckets buckets).getD b [] ↔
      (i < hashes.length ∧ bucket_of hashes buckets i = b) := by
  by_cases hb : b < buckets
  · have hlt : b < (List.range buckets).length := by simpa using hb
    have hchar : (buckets_vec hashes buckets buckets).getD b [] =
        (List.range hashes.length).filter
          (fun i => fast_reduce (hashes.getD i ⟨0, 0⟩).h1 buckets = b) := by
      unfold buckets_vec
      rw [Aux.getD_map _ _ b hlt]
      congr 1
      simp
    rw [hchar]
    simp [List.mem_filter, bucket_of]
  · have hchar : (buckets_vec hashes buckets buckets).getD b [] = [] := by
      apply Aux.getD_of_le
      unfold buckets_vec
      simpa using Nat.le_of_not_lt hb
    rw [hchar]
    simp only [List.not_mem_nil, false_iff, not_and]
    intro _
    exact fun he => hb (he ▸ bucket_of_lt hashes buckets i hb0 hb32)

theorem buckets_vec_nodup (hashes : List Shared.PtrHashes) (buckets b : Nat) :
    ((buckets_vec hashes buckets buckets).getD b []).Nodup := by
  by_cases hb : b < buckets
  · have hlt : b < (List.range buckets).length := by simpa using hb
    unfold buckets_vec
    rw [Aux.getD_map _ _ b hlt]
    exact (List.nodup_range _).filter _
  · have hchar : (buckets_vec hashes buckets buckets).getD b [] = [] := by
      apply Aux.getD_of_le
      unfold buckets_vec
      simpa using Nat.le_of_not_lt hb
    rw [hchar]
    exact List.nodup_nil

theorem range_from_eq : ∀ (n start : Nat), range_from start n = List.range' start n := by
  intro n
  induction n with
  | zero => intro start; rfl
  | succ k ih =>
    intro start
    unfold range_from
    rw [ih (start + 1)]
    rfl

theorem mem_pilot_tries (p : Nat) (h : p ∈ pilot_tries) : p ≤ MAX_PILOT_TRIES := by
  unfold pilot_tries at h
  rw [range_from_eq] at h
  rw [List.mem_range'_1] at h
  omega

theorem insert_by_perm (le : Nat → Nat → Bool) (x : Nat) :
    ∀ l, (insert_by le x l).Perm (x :: l) := by
  intro l
  induction l with
  | nil => exact List.Perm.refl _
  | cons y ys ih =>
    unfold insert_by
    split
    · exact List.Perm.refl _
    · exact (ih.cons y).trans (List.Perm.swap x y ys)

theorem sort_by_perm (le : Nat → Nat → Bool) :
    ∀ l, (sort_by le l).Perm l := by
  intro l
  induction l with
  | nil => exact List.Perm.refl _
  | cons x xs ih =>
    exact (insert_by_perm le x (sort_by le xs)).trans (ih.cons x)

/-- The invariant carried through the outer bucket loop of
`try_generate`: on success every key of an already-processed bucket sits
at the slot prescribed by its bucket's final pilot, every slot entry
points back to such a key, pilots never exceed `MAX_PILOT_TRIES` and
buckets no key maps to keep pilot `0`. -/
theorem bucket_loop_sound (hashes : List Shared.PtrHashes)
    (seed slots buckets : Nat)
    (hs0 : 0 < slots) (hs32 : slots < 2 ^ 32)
    (hb0 : 0 < buckets) (hb32 : buckets < 2 ^ 32) :
    ∀ (bs : List Nat) pilots slotsMap tryMap gen pilots' slotsMap',
      bs.Nodup →
      pilots.length = buckets →
      slotsMap.length = slots →
      tryMap.length = slots →
      (∀ s j, slotsMap.getD s none = some j →
        j < hashes.length ∧ bucket_of hashes buckets j ∉ bs ∧
        s = slot_of hashes seed slots (pilots.getD (bucket_of hashes buckets j) 0) j) →
      (∀ j, j < hashes.length → bucket_of hashes buckets j ∉ bs →
        slotsMap.getD (slot_of hashes seed slots
          (pilots.getD (bucket_of hashes buckets j) 0) j) none = some j) →
      (∀ b, pilots.getD b 0 ≤ MAX_PILOT_TRIES) →
      (∀ b, (∀ j, j < hashes.length → bucket_of hashes buckets j ≠ b) →
        pilots.getD b 0 = 0) →
      bucket_loop hashes (buckets_vec hashes buckets buckets) seed slots bs
        pilots slotsMap tryMap gen = some (pilots', slotsMap') →
      pilots'.length = buckets ∧ slotsMap'.length = slots ∧
      (∀ s j, slotsMap'.getD s none = some j →
        j < hashes.length ∧
        s = slot_of hashes seed slots (pilots'.getD (bucket_of hashes buckets j) 0) j) ∧
      (∀ j, j < hashes.length →
        slotsMap'.getD (slot_of hashes seed slots
          (pilots'.getD (bucket_of hashes buckets j) 0) j) none = some j) ∧
      (∀ b, pilots'.getD b 0 ≤ MAX_PILOT_TRIES) ∧
      (∀ b, (∀ j, j < hashes.length → bucket_of hashes buckets j ≠ b) →
        pilots'.getD b 0 = 0) := by
  intro bs
  induction bs with
  | nil =>
    intro pilots slotsMap tryMap gen pilots' slotsMap' _ hpl hsl _ hback hfwd hbound hzero h
    obtain ⟨h1, h2⟩ := Prod.mk.inj (Option.some.inj h)
    subst h1; subst h2
    exact ⟨hpl, hsl, fun s j hs => ⟨(hback s j hs).1, (hback s j hs).2.2⟩,
      fun j hj => hfwd j hj (List.not_mem_nil _), hbound, hzero⟩
  | cons b bs ih =>
    intro pilots slotsMap tryMap gen pilots' slotsMap' hnd hpl hsl htl
      hback hfwd hbound hzero h
    have hndt : bs.Nodup := (List.nodup_cons.mp hnd).2
    have hbnotbs : b ∉ bs := (List.nodup_cons.mp hnd).1
    unfold bucket_loop at h
    split at h
    · rename_i hek
      have hempty : (buckets_vec hashes buckets buckets).getD b [] = [] :=
        List.isEmpty_iff.mp hek
      have hnob : ∀ j, j < hashes.length → bucket_of hashes buckets j ≠ b := by
        intro j hj he
        have hm : j ∈ (buckets_vec hashes buckets buckets).getD b [] :=
          (mem_buckets_vec hashes buckets hb0 hb32 j b).mpr ⟨hj, he⟩
        rw [hempty] at hm
        exact List.not_mem_nil _ hm
      refine ih pilots slotsMap tryMap gen pilots' slotsMap' hndt hpl hsl htl
        ?_ ?_ hbound hzero h
      · intro s j hs
        obtain ⟨hj, hnb, hslot⟩ := hback s j hs
        exact ⟨hj, fun hm => hnb (List.mem_cons_of_mem _ hm), hslot⟩
      · intro j hj hnb
        by_cases hjb : bucket_of hashes buckets j = b
        · exact absurd hjb (hnob j hj)
        · refine hfwd j hj ?_
          intro hm
          rcases List.mem_cons.mp hm with he | hm'
          · exact hjb he
          · exact hnb hm'
    · rename_i hek
      rcases hf : find_pilot hashes slotsMap seed slots
          ((buckets_vec hashes buckets buckets).getD b []) pilot_tries tryMap gen
        with _ | ⟨p, tm, g, vals⟩
      · rw [hf] at h; exact absurd h (by simp)
      · rw [hf] at h
        dsimp only at h
        have hkeys : ∀ k, k ∈ (buckets_vec hashes buckets buckets).getD b [] ↔
            (k < hashes.length ∧ bucket_of hashes buckets k = b) :=
          fun k => mem_buckets_vec hashes buckets hb0 hb32 k b
        have hblt : b < buckets := by
          have hne : (buckets_vec hashes buckets buckets).getD b [] ≠ [] := by
            intro he; rw [he] at hek; exact hek rfl
          obtain ⟨k, hk⟩ := List.exists_mem_of_ne_nil _ hne
          have hkk := (hkeys k).mp hk
          exact hkk.2 ▸ bucket_of_lt hashes buckets k hb0 hb32
        obtain ⟨hp_mem, htmlen, hvals, hfree, hvnd⟩ :=
          find_pilot_sound hashes slotsMap seed slots _ pilot_tries tryMap gen
            p tm g vals
            (fun k pp => by
              rw [htl]
              exact Aux.slot_for_lt _ _ _ _ hs0 hs32) hf
        have hp_le : p ≤ MAX_PILOT_TRIES := mem_pilot_tries p hp_mem
        have hvals_fst : vals.map Prod.fst =
            ((buckets_vec hashes buckets buckets).getD b []).map
              (fun k => slot_for (hashes.getD k ⟨0, 0⟩) p seed slots) := by
          rw [hvals, List.map_map]
          rfl
        have hvals_fst_lt : ∀ q ∈ vals, Prod.fst q < slotsMap.length := by
          intro q hq
          rw [hvals] at hq
          obtain ⟨k, -, he⟩ := List.mem_map.mp hq
          rw [← he, hsl]
          exact Aux.slot_for_lt _ _ _ _ hs0 hs32
        refine ih (pilots.set b p) (commit slotsMap vals) tm g pilots' slotsMap'
          hndt (by rw [List.length_set]; exact hpl)
          (by rw [commit_length]; exact hsl) (by rw [htmlen]; exact htl)
          ?_ ?_ ?_ ?_ h
        · intro s j hs
          rcases commit_getD_cases slotsMap vals s j hvals_fst_lt hs with hmem | hold
          · rw [hvals] at hmem
            obtain ⟨k, hk, he⟩ := List.mem_map.mp hmem
            obtain ⟨he1, he2⟩ := Prod.mk.inj he
            subst he2
            obtain ⟨hjlen, hjb⟩ := (hkeys k).mp hk
            refine ⟨hjlen, by rw [hjb]; exact hbnotbs, ?_⟩
            rw [hjb, Aux.getD_set_self _ _ _ _ (by rw [hpl]; exact hblt), ← he1]
            rfl
          · obtain ⟨hjlen, hnb, hslot⟩ := hback s j hold
            have hjb_ne : bucket_of hashes buckets j ≠ b := by
              intro he; exact hnb (he ▸ List.mem_cons_self _ _)
            refine ⟨hjlen, fun hm => hnb (List.mem_cons_of_mem _ hm), ?_⟩
            rw [Aux.getD_set_ne _ _ _ _ _ (fun he => hjb_ne he.symm)]
            exact hslot
        · intro j hj hnb
          by_cases hjb : bucket_of hashes buckets j = b
          · have hjk : j ∈ (buckets_vec hashes buckets buckets).getD b [] :=
              (hkeys j).mpr ⟨hj, hjb⟩
            have hpnew : (pilots.set b p).getD (bucket_of hashes buckets j) 0 = p := by
              rw [hjb]; exact Aux.getD_set_self _ _ _ _ (by rw [hpl]; exact hblt)
            rw [hpnew]
            apply commit_getD_mem slotsMap vals _ j
              (by rw [hvals_fst]; exact hvnd)
              (by rw [hvals]
                  exact List.mem_map.mpr ⟨j, hjk, rfl⟩)
              (by rw [hsl]; exact Aux.slot_for_lt _ _ _ _ hs0 hs32)
          · have hnbc : bucket_of hashes buckets j ∉ b :: bs := by
              intro hm
              rcases List.mem_cons.mp hm with he | hm'
              · exact hjb he
              · exact hnb hm'
            have hpnew : (pilots.set b p).getD (bucket_of hashes buckets j) 0
                = pilots.getD (bucket_of hashes buckets j) 0 :=
              Aux.getD_set_ne _ _ _ _ _ (fun he => hjb he.symm)
            rw [hpnew]
            have hold := hfwd j hj hnbc
            rw [← hold]
            apply commit_getD_notin
            intro hmem
            rw [hvals_fst] at hmem
            obtain ⟨k, hk, he⟩ := List.mem_map.mp hmem
            have hfree_k := hfree k hk
            rw [he] at hfree_k
            rw [hold] at hfree_k
            exact Option.noConfusion hfree_k
        · intro b'
          by_cases hbe : b = b'
          · subst hbe
            rw [Aux.getD_set_self _ _ _ _ (by rw [hpl]; exact hblt)]
            exact hp_le
          · rw [Aux.getD_set_ne _ _ _ _ _ hbe]
            exact hbound b'
        · intro b' hb'
          by_cases hbe : b = b'
          · subst hbe
            exfalso
            have hne : (buckets_vec hashes buckets buckets).getD b [] ≠ [] := by
              intro he; rw [he] at hek; exact hek rfl
            obtain ⟨k, hk⟩ := List.exists_mem_of_ne_nil _ hne
            obtain ⟨hklen, hkb⟩ := (hkeys k).mp hk
            exact hb' k hklen hkb
          · rw [Aux.getD_set_ne _ _ _ _ _ hbe]
            exact hzero b' hb'

/-- The dense index an assigned slot is mapped to by
`build_remap_and_map`: itself when below `len`, its remap entry
otherwise. -/
def dense_of (remap : List Nat) (len s : Nat) : Nat :=
  if s < len then s else remap.getD (s - len) 0

theorem length_filter_not_add {α : Type} (p : α → Bool) (l : List α) :
    ((l.filter fun a => ¬ p a).length + (l.filter p).length) = l.length := by
  induction l with
  | nil => rfl
  | cons a t ih =>
    cases hpa : p a <;> simp [List.filter_cons, hpa, ← ih] <;> omega

/-- Specification of the remap-filling loop: walking a duplicate-free
list of overflow slots, the assigned ones consume the free list in
order, the unassigned ones leave their entries untouched, and every
entry of the result is either an original entry or a free slot. -/
theorem remap_loop_spec (slotsMap : List (Option Nat)) (len : Nat) :
    ∀ (ss acc fs : List Nat),
      ss.Nodup →
      (∀ s ∈ ss, len ≤ s ∧ s - len < acc.length) →
      ((ss.filter fun s => (slotsMap.getD s none).isSome).length ≤ fs.length) →
      (remap_loop slotsMap len ss acc fs).length = acc.length ∧
      (∀ j, (∀ s ∈ ss, s - len ≠ j) →
        (remap_loop slotsMap len ss acc fs).getD j 0 = acc.getD j 0) ∧
      (∀ pr ∈ (ss.filter fun s => (slotsMap.getD s none).isSome).zip fs,
        (remap_loop slotsMap len ss acc fs).getD (pr.1 - len) 0 = pr.2) ∧
      (∀ s ∈ ss, ¬ (slotsMap.getD s none).isSome →
        (remap_loop slotsMap len ss acc fs).getD (s - len) 0 = acc.getD (s - len) 0) ∧
      (∀ j, (remap_loop slotsMap len ss acc fs).getD j 0 = acc.getD j 0 ∨
        (remap_loop slotsMap len ss acc fs).getD j 0 ∈ fs) := by
  intro ss
  induction ss with
  | nil =>
    intro acc fs _ _ _
    refine ⟨rfl, fun j _ => rfl, ?_, by simp, fun j => Or.inl rfl⟩
    intro pr hpr
    simp [List.filter_nil] at hpr
  | cons s0 ss ih =>
    intro acc fs hnd hbnd hcnt
    have hnds : ss.Nodup := (List.nodup_cons.mp hnd).2
    have hs0ns : s0 ∉ ss := (List.nodup_cons.mp hnd).1
    have hs0b := hbnd s0 (List.mem_cons_self _ _)
    have hsub_ne : ∀ s ∈ ss, s - len ≠ s0 - len := by
      intro s hs he
      have hsb := hbnd s (List.mem_cons_of_mem _ hs)
      have : s = s0 := by omega
      exact hs0ns (this ▸ hs)
    unfold remap_loop
    split
    · rename_i hP
      have hfe : (List.filter (fun s => (slotsMap.getD s none).isSome) (s0 :: ss))
          = s0 :: List.filter (fun s => (slotsMap.getD s none).isSome) ss := by
        rw [List.filter_cons, if_pos hP]
      match fs with
      | [] =>
        exfalso
        rw [hfe] at hcnt
        simp at hcnt
      | f :: fs' =>
        have hcnt' : (ss.filter fun s => (slotsMap.getD s none).isSome).length
            ≤ fs'.length := by
          rw [hfe] at hcnt
          simpa using hcnt
        obtain ⟨ih1, ih2, ih3, ih4, ih5⟩ := ih (acc.set (s0 - len) f) fs' hnds
          (fun s hs => ⟨(hbnd s (List.mem_cons_of_mem _ hs)).1,
            by rw [List.length_set]; exact (hbnd s (List.mem_cons_of_mem _ hs)).2⟩)
          hcnt'
        refine ⟨by rw [ih1, List.length_set], ?_, ?_, ?_, ?_⟩
        · intro j hj
          rw [ih2 j (fun s hs => hj s (List.mem_cons_of_mem _ hs)),
            Aux.getD_set_ne _ _ _ _ _ (hj s0 (List.mem_cons_self _ _))]
        · intro pr hpr
          rw [hfe] at hpr
          rw [List.zip_cons_cons] at hpr
          rcases List.mem_cons.mp hpr with he | hm
          · subst he
            rw [ih2 _ hsub_ne, Aux.getD_set_self _ _ _ _ hs0b.2]
          · exact ih3 pr hm
        · intro s hs hns
          rcases List.mem_cons.mp hs with rfl | hm
          · exact absurd hP hns
          · rw [ih4 s hm hns,
              Aux.getD_set_ne _ _ _ _ _ (fun he => hsub_ne s hm he.symm)]
        · intro j
          rcases ih5 j with hacc | hmem
          · by_cases hje : s0 - len = j
            · subst hje
              rw [hacc, Aux.getD_set_self _ _ _ _ hs0b.2]
              exact Or.inr (List.mem_cons_self _ _)
            · rw [hacc, Aux.getD_set_ne _ _ _ _ _ hje]
              exact Or.inl rfl
          · exact Or.inr (List.mem_cons_of_mem _ hmem)
    · rename_i hP
      have hfe : (List.filter (fun s => (slotsMap.getD s none).isSome) (s0 :: ss))
          = List.filter (fun s => (slotsMap.getD s none).isSome) ss := by
        simp only [List.filter_cons]
        split
        · rename_i hx; exact absurd (by simpa using hx) (by simpa using hP)
        · rfl
      have hcnt' : (ss.filter fun s => (slotsMap.getD s none).isSome).length
          ≤ fs.length := by rw [← hfe]; exact hcnt
      obtain ⟨ih1, ih2, ih3, ih4, ih5⟩ := ih acc fs hnds
        (fun s hs => hbnd s (List.mem_cons_of_mem _ hs)) hcnt'
      refine ⟨ih1, ?_, ?_, ?_, ih5⟩
      · intro j hj
        exact ih2 j (fun s hs => hj s (List.mem_cons_of_mem _ hs))
      · intro pr hpr
        rw [hfe] at hpr
        exact ih3 pr hpr
      · intro s hs hns
        rcases List.mem_cons.mp hs with rfl | hm
        · exact ih2 _ hsub_ne
        · exact ih4 s hm hns

/-- Specification of the map-filling loop: every assigned entry ends up
at its dense index, other positions are untouched. -/
theorem map_loop_spec (remap : List Nat) (len : Nat) :
    ∀ (es : List (Nat × Option Nat)) (m : List (Option Nat)),
      (es.map Prod.fst).Nodup →
      (∀ q ∈ es, ∀ q' ∈ es, q.2.isSome → q'.2.isSome → q.1 ≠ q'.1 →
        dense_of remap len q.1 ≠ dense_of remap len q'.1) →
      (∀ q ∈ es, q.2.isSome → dense_of remap len q.1 < m.length) →
      (map_loop remap len es m).length = m.length ∧
      (∀ s j, (s, some j) ∈ es →
        (map_loop remap len es m).getD (dense_of remap len s) none = some j) ∧
      (∀ d, (∀ q ∈ es, q.2.isSome → dense_of remap len q.1 ≠ d) →
        (map_loop remap len es m).getD d none = m.getD d none) := by
  intro es
  induction es with
  | nil =>
    intro m _ _ _
    exact ⟨rfl, by simp, fun d _ => rfl⟩
  | cons q es ih =>
    intro m hnd hinj hbnd
    obtain ⟨s0, e0⟩ := q
    have hnds : (es.map Prod.fst).Nodup := by
      rw [List.map_cons, List.nodup_cons] at hnd
      exact hnd.2
    have hq1ns : s0 ∉ es.map Prod.fst := by
      rw [List.map_cons, List.nodup_cons] at hnd
      exact hnd.1
    cases e0 with
    | none =>
      obtain ⟨ih1, ih2, ih3⟩ := ih m hnds
        (fun q hq q' hq' h1 h2 h3 => hinj q (List.mem_cons_of_mem _ hq)
          q' (List.mem_cons_of_mem _ hq') h1 h2 h3)
        (fun q hq h1 => hbnd q (List.mem_cons_of_mem _ hq) h1)
      refine ⟨ih1, ?_, ?_⟩
      · intro s j hm
        rcases List.mem_cons.mp hm with he | hm'
        · exact absurd (Prod.mk.inj he).2 (by simp)
        · exact ih2 s j hm'
      · intro d hd
        exact ih3 d (fun q hq h1 => hd q (List.mem_cons_of_mem _ hq) h1)
    | some v =>
      have hd0 : dense_of remap len s0 < m.length :=
        hbnd (s0, some v) (List.mem_cons_self _ _) (by simp)
      obtain ⟨ih1, ih2, ih3⟩ := ih (m.set (dense_of remap len s0) (some v)) hnds
        (fun q hq q' hq' h1 h2 h3 => hinj q (List.mem_cons_of_mem _ hq)
          q' (List.mem_cons_of_mem _ hq') h1 h2 h3)
        (fun q hq h1 => by
          rw [List.length_set]
          exact hbnd q (List.mem_cons_of_mem _ hq) h1)
      have hstep : map_loop remap len ((s0, some v) :: es) m
          = map_loop remap len es (m.set (dense_of remap len s0) (some v)) := rfl
      refine ⟨by rw [hstep, ih1, List.length_set], ?_, ?_⟩
      · intro s j hm
        rcases List.mem_cons.mp hm with he | hm'
        · obtain ⟨he1, he2⟩ := Prod.mk.inj he
          obtain rfl := (Option.some.inj he2)
          subst he1
          rw [hstep]
          have huntouched : ∀ q ∈ es, q.2.isSome →
              dense_of remap len q.1 ≠ dense_of remap len s := by
            intro q hq hqs
            refine hinj q (List.mem_cons_of_mem _ hq) (s, some j)
              (List.mem_cons_self _ _) hqs (by simp) ?_
            intro he
            apply hq1ns
            have hqm : q.1 ∈ es.map Prod.fst := List.mem_map.mpr ⟨q, hq, rfl⟩
            rwa [he] at hqm
          rw [ih3 _ huntouched, Aux.getD_set_self _ _ _ _ hd0]
        · rw [hstep]
          exact ih2 s j hm'
      · intro d hd
        rw [hstep, ih3 d (fun q hq h1 => hd q (List.mem_cons_of_mem _ hq) h1),
          Aux.getD_set_ne _ _ _ _ _
            (hd (s0, some v) (List.mem_cons_self _ _) (by simp))]

/-- A slots map holding each of the `len` input indices exactly once has
exactly `len` assigned slots. -/
theorem assigned_count (slotsMap : List (Option Nat)) (len : Nat)
    (H1 : ∀ s j, slotsMap.getD s none = some j → j < len)
    (H2 : ∀ s s' j, slotsMap.getD s none = some j →
      slotsMap.getD s' none = some j → s = s')
    (H3 : ∀ j, j < len → ∃ s, slotsMap.getD s none = some j) :
    ((List.range slotsMap.length).filter
      fun s => (slotsMap.getD s none).isSome).length = len := by
  have hmem_L : ∀ s, s ∈ ((List.range slotsMap.length).filter
      fun s => (slotsMap.getD s none).isSome) ↔
      (s < slotsMap.length ∧ (slotsMap.getD s none).isSome) := by
    intro s; simp [List.mem_filter]
  have hnd_L : ((List.range slotsMap.length).filter
      fun s => (slotsMap.getD s none).isSome).Nodup :=
    (List.nodup_range _).filter _
  have hnd_map : (((List.range slotsMap.length).filter
      fun s => (slotsMap.getD s none).isSome).map
        fun s => (slotsMap.getD s none).getD 0).Nodup := by
    apply List.Nodup.map_on ?_ hnd_L
    intro s hs s' hs' he
    obtain ⟨v, hv⟩ := Option.isSome_iff_exists.mp ((hmem_L s).mp hs).2
    obtain ⟨v', hv'⟩ := Option.isSome_iff_exists.mp ((hmem_L s').mp hs').2
    rw [hv, hv'] at he
    simp only [Option.getD_some] at he
    rw [← he] at hv'
    exact H2 s s' v hv hv'
  have hperm : (((List.range slotsMap.length).filter
      fun s => (slotsMap.getD s none).isSome).map
        fun s => (slotsMap.getD s none).getD 0).Perm (List.range len) := by
    rw [List.perm_ext_iff_of_nodup hnd_map (List.nodup_range len)]
    intro j
    constructor
    · intro hj
      obtain ⟨s, hs, he⟩ := List.mem_map.mp hj
      obtain ⟨v, hv⟩ := Option.isSome_iff_exists.mp ((hmem_L s).mp hs).2
      rw [hv] at he
      simp only [Option.getD_some] at he
      rw [List.mem_range, ← he]
      exact H1 s v hv
    · intro hj
      rw [List.mem_range] at hj
      obtain ⟨s, hs⟩ := H3 j hj
      have hslen : s < slotsMap.length := by
        by_contra hc
        rw [Aux.getD_of_le _ _ _ (Nat.le_of_not_lt hc)] at hs
        exact Option.noConfusion hs
      exact List.mem_map.mpr ⟨s, (hmem_L s).mpr ⟨hslen, by rw [hs]; rfl⟩,
        by rw [hs]; rfl⟩
  have hlen := hperm.length_eq
  simpa using hlen

/-- Master specification of `build_remap_and_map` for a slots map holding
each of the `len` input indices exactly once: the remap table has length
`slots − len` with entries below `len`, unassigned free dense slots and
assigned overflow slots are equinumerous and paired in ascending order,
untouched remap entries stay `0`, the final `expect` never fires, and the
resulting map is a permutation of the input positions with
`map[dense(s)] = slots_map[s]` for every assigned slot `s`. -/
theorem build_remap_and_map_sound (slotsMap : List (Option Nat)) (len : Nat)
    (hlen0 : 0 < len)
    (H1 : ∀ s j, slotsMap.getD s none = some j → j < len)
    (H2 : ∀ s s' j, slotsMap.getD s none = some j →
      slotsMap.getD s' none = some j → s = s')
    (H3 : ∀ j, j < len → ∃ s, slotsMap.getD s none = some j) :
    (build_remap_and_map slotsMap len).1.length = slotsMap.length - len ∧
    (∀ r ∈ (build_remap_and_map slotsMap len).1, r < len) ∧
    ((List.range len).filter fun s => ¬ (slotsMap.getD s none).isSome).length
      = ((List.range' len (slotsMap.length - len)).filter
          fun s => (slotsMap.getD s none).isSome).length ∧
    (∀ pr ∈ ((List.range' len (slotsMap.length - len)).filter
          fun s => (slotsMap.getD s none).isSome).zip
        ((List.range len).filter fun s => ¬ (slotsMap.getD s none).isSome),
      (build_remap_and_map slotsMap len).1.getD (pr.1 - len) 0 = pr.2) ∧
    (∀ s, len ≤ s → s < slotsMap.length → ¬ (slotsMap.getD s none).isSome →
      (build_remap_and_map slotsMap len).1.getD (s - len) 0 = 0) ∧
    (∃ m, (build_remap_and_map slotsMap len).2 = some m ∧ m.length = len ∧
      m.Perm (List.range len) ∧
      (∀ s j, slotsMap.getD s none = some j →
        dense_of (build_remap_and_map slotsMap len).1 len s < len ∧
        m.getD (dense_of (build_remap_and_map slotsMap len).1 len s) 0 = j)) := by
  have hbuild1 : (build_remap_and_map slotsMap len).1
      = remap_loop slotsMap len (List.range' len (slotsMap.length - len))
        (List.replicate (slotsMap.length - len) 0)
        ((List.range len).filter fun s => ¬ (slotsMap.getD s none).isSome) := rfl
  have hbuild2 : (build_remap_and_map slotsMap len).2
      = list_all_some (map_loop (build_remap_and_map slotsMap len).1 len
          slotsMap.enum (List.replicate len none)) := rfl
  have hassigned_lt : ∀ s, (slotsMap.getD s none).isSome → s < slotsMap.length := by
    intro s hP
    by_contra hc
    rw [Aux.getD_of_le _ _ _ (Nat.le_of_not_lt hc)] at hP
    simp at hP
  have hLlen := assigned_count slotsMap len H1 H2 H3
  have hsl : len ≤ slotsMap.length := by
    have h1 := List.length_filter_le (fun s => (slotsMap.getD s none).isSome)
      (List.range slotsMap.length)
    rw [hLlen] at h1
    simpa using h1
  have happ : ∀ (s n m : Nat),
      List.range' s n ++ List.range' (s + n) m = List.range' s (n + m) := by
    intro s n m
    have h2 := (List.range'_append s n m 1).symm
    simpa [Nat.add_comm] using h2
  have hsplit : List.range slotsMap.length
      = List.range len ++ List.range' len (slotsMap.length - len) := by
    obtain ⟨k, hk⟩ : ∃ k, slotsMap.length = len + k :=
      ⟨slotsMap.length - len, (Nat.add_sub_cancel' hsl).symm⟩
    rw [hk, Nat.add_sub_cancel_left, List.range_eq_range', List.range_eq_range',
      ← happ 0 len k, Nat.zero_add]
  have hcnt_e : ((List.range len).filter fun s => (slotsMap.getD s none).isSome).length
      + ((List.range' len (slotsMap.length - len)).filter
          fun s => (slotsMap.getD s none).isSome).length = len := by
    rw [← List.length_append, ← List.filter_append, ← hsplit, hLlen]
  have hnot : ((List.range len).filter fun s => ¬ (slotsMap.getD s none).isSome).length
      + ((List.range len).filter fun s => (slotsMap.getD s none).isSome).length
        = len := by
    simpa using length_filter_not_add
      (fun s => (slotsMap.getD s none).isSome) (List.range len)
  have hcount : ((List.range len).filter
        fun s => ¬ (slotsMap.getD s none).isSome).length
      = ((List.range' len (slotsMap.length - len)).filter
          fun s => (slotsMap.getD s none).isSome).length := by
    omega
  obtain ⟨hrm_len, hrm_untouched, hrm_pairs, hrm_unass, hrm_entries⟩ :=
    remap_loop_spec slotsMap len (List.range' len (slotsMap.length - len))
      (List.replicate (slotsMap.length - len) 0)
      ((List.range len).filter fun s => ¬ (slotsMap.getD s none).isSome)
      (List.nodup_range' _ _)
      (fun s hs => by
        rw [List.mem_range'_1] at hs
        refine ⟨hs.1, ?_⟩
        rw [List.length_replicate]
        omega)
      (le_of_eq hcount.symm)
  rw [← hbuild1] at hrm_len hrm_untouched hrm_pairs hrm_unass hrm_entries
  have hrm_length : (build_remap_and_map slotsMap len).1.length
      = slotsMap.length - len := by
    rw [hrm_len, List.length_replicate]
  have hoa_mem : ∀ s, (s ∈ (List.range' len (slotsMap.length - len)).filter
      (fun s => (slotsMap.getD s none).isSome)) ↔
      (len ≤ s ∧ s < slotsMap.length ∧ (slotsMap.getD s none).isSome) := by
    intro s
    rw [List.mem_filter, List.mem_range'_1]
    constructor
    · rintro ⟨⟨h1, h2⟩, h3⟩
      exact ⟨h1, by omega, by simpa using h3⟩
    · rintro ⟨h1, h2, h3⟩
      exact ⟨⟨h1, by omega⟩, by simpa using h3⟩
  have hfree_mem : ∀ f, (f ∈ (List.range len).filter
      (fun s => ¬ (slotsMap.getD s none).isSome)) ↔
      (f < len ∧ ¬ (slotsMap.getD f none).isSome) := by
    intro f
    rw [List.mem_filter, List.mem_range]
    simp
  have hoa_nd : ((List.range' len (slotsMap.length - len)).filter
      (fun s => (slotsMap.getD s none).isSome)).Nodup :=
    (List.nodup_range' _ _).filter _
  have hfree_nd : ((List.range len).filter
      (fun s => ¬ (slotsMap.getD s none).isSome)).Nodup :=
    (List.nodup_range _).filter _
  have hfst_zip : (((List.range' len (slotsMap.length - len)).filter
      (fun s => (slotsMap.getD s none).isSome)).zip
        ((List.range len).filter
          (fun s => ¬ (slotsMap.getD s none).isSome))).map Prod.fst
      = (List.range' len (slotsMap.length - len)).filter
          (fun s => (slotsMap.getD s none).isSome) :=
    List.map_fst_zip _ _ (le_of_eq hcount.symm)
  have hpair : ∀ s ∈ (List.range' len (slotsMap.length - len)).filter
      (fun s => (slotsMap.getD s none).isSome),
      ∃ f, (s, f) ∈ ((List.range' len (slotsMap.length - len)).filter
        (fun s => (slotsMap.getD s none).isSome)).zip
          ((List.range len).filter
            (fun s => ¬ (slotsMap.getD s none).isSome)) := by
    intro s hs
    rw [← hfst_zip] at hs
    obtain ⟨⟨a, f⟩, hm, he⟩ := List.mem_map.mp hs
    cases he
    exact ⟨f, hm⟩
  have hdense_pair : ∀ pr ∈ ((List.range' len (slotsMap.length - len)).filter
      (fun s => (slotsMap.getD s none).isSome)).zip
        ((List.range len).filter
          (fun s => ¬ (slotsMap.getD s none).isSome)),
      dense_of (build_remap_and_map slotsMap len).1 len pr.1 = pr.2 ∧
      pr.2 ∈ (List.range len).filter
        (fun s => ¬ (slotsMap.getD s none).isSome) := by
    intro pr hpr
    obtain ⟨hpr1, hpr2⟩ := List.of_mem_zip hpr
    have hs := (hoa_mem pr.1).mp hpr1
    have hnlt : ¬ pr.1 < len := by omega
    refine ⟨?_, hpr2⟩
    rw [show dense_of (build_remap_and_map slotsMap len).1 len pr.1
      = if pr.1 < len then pr.1
        else (build_remap_and_map slotsMap len).1.getD (pr.1 - len) 0 from rfl,
      if_neg hnlt]
    exact hrm_pairs pr hpr
  have hdense_lt : ∀ s, (slotsMap.getD s none).isSome →
      dense_of (build_remap_and_map slotsMap len).1 len s < len := by
    intro s hP
    by_cases hsl2 : s < len
    · rw [show dense_of (build_remap_and_map slotsMap len).1 len s
        = if s < len then s
          else (build_remap_and_map slotsMap len).1.getD (s - len) 0 from rfl,
        if_pos hsl2]
      exact hsl2
    · have hmem : s ∈ (List.range' len (slotsMap.length - len)).filter
          (fun s => (slotsMap.getD s none).isSome) :=
        (hoa_mem s).mpr ⟨by omega, hassigned_lt s hP, hP⟩
      obtain ⟨f, hf⟩ := hpair s hmem
      obtain ⟨hd1, hd2⟩ := hdense_pair (s, f) hf
      rw [hd1]
      exact ((hfree_mem f).mp hd2).1
  have hdense_id : ∀ s, s < len →
      dense_of (build_remap_and_map slotsMap len).1 len s = s := by
    intro s hs
    rw [show dense_of (build_remap_and_map slotsMap len).1 len s
      = if s < len then s
        else (build_remap_and_map slotsMap len).1.getD (s - len) 0 from rfl,
      if_pos hs]
  have hdense_inj : ∀ s s', (slotsMap.getD s none).isSome →
      (slotsMap.getD s' none).isSome → s ≠ s' →
      dense_of (build_remap_and_map slotsMap len).1 len s
        ≠ dense_of (build_remap_and_map slotsMap len).1 len s' := by
    intro s s' hP hP' hne
    by_cases h1 : s < len <;> by_cases h2 : s' < len
    · rw [hdense_id s h1, hdense_id s' h2]; exact hne
    · have hmem' : s' ∈ (List.range' len (slotsMap.length - len)).filter
          (fun s => (slotsMap.getD s none).isSome) :=
        (hoa_mem s').mpr ⟨by omega, hassigned_lt s' hP', hP'⟩
      obtain ⟨f', hf'⟩ := hpair s' hmem'
      obtain ⟨hd1', hd2'⟩ := hdense_pair (s', f') hf'
      rw [hdense_id s h1, hd1']
      intro he
      rw [← he] at hd2'
      exact ((hfree_mem s).mp hd2').2 hP
    · have hmem : s ∈ (List.range' len (slotsMap.length - len)).filter
          (fun s => (slotsMap.getD s none).isSome) :=
        (hoa_mem s).mpr ⟨by omega, hassigned_lt s hP, hP⟩
      obtain ⟨f, hf⟩ := hpair s hmem
      obtain ⟨hd1, hd2⟩ := hdense_pair (s, f) hf
      rw [hdense_id s' h2, hd1]
      intro he
      rw [he] at hd2
      exact ((hfree_mem s').mp hd2).2 hP'
    · have hmem : s ∈ (List.range' len (slotsMap.length - len)).filter
          (fun s => (slotsMap.getD s none).isSome) :=
        (hoa_mem s).mpr ⟨by omega, hassigned_lt s hP, hP⟩
      have hmem' : s' ∈ (List.range' len (slotsMap.length - len)).filter
          (fun s => (slotsMap.getD s none).isSome) :=
        (hoa_mem s').mpr ⟨by omega, hassigned_lt s' hP', hP'⟩
      obtain ⟨f, hf⟩ := hpair s hmem
      obtain ⟨f', hf'⟩ := hpair s' hmem'
      obtain ⟨hd1, -⟩ := hdense_pair (s, f) hf
      obtain ⟨hd1', -⟩ := hdense_pair (s', f') hf'
      rw [hd1, hd1']
      exact Aux.zip_inj_of_nodup _ _ hoa_nd hfree_nd s f s' f' hf hf' hne
  have hdense_surj : ∀ d, d < len → ∃ s, (slotsMap.getD s none).isSome ∧
      dense_of (build_remap_and_map slotsMap len).1 len s = d := by
    intro d hd
    by_cases hP : (slotsMap.getD d none).isSome
    · exact ⟨d, hP, hdense_id d hd⟩
    · have hdf : d ∈ (List.range len).filter
          (fun s => ¬ (slotsMap.getD s none).isSome) :=
        (hfree_mem d).mpr ⟨hd, hP⟩
      obtain ⟨s, hzs⟩ := Aux.zip_snd_surj _ _ hcount.symm d hdf
      have hs := (List.of_mem_zip hzs).1
      have hP_s := ((hoa_mem s).mp hs).2.2
      exact ⟨s, hP_s, (hdense_pair (s, d) hzs).1⟩
  have henum_fst : (slotsMap.enum.map Prod.fst).Nodup := by
    rw [List.enum_map_fst]
    exact List.nodup_range _
  obtain ⟨hm_len, hm_set, hm_untouched⟩ :=
    map_loop_spec (build_remap_and_map slotsMap len).1 len slotsMap.enum
      (List.replicate len none) henum_fst
      (by
        rintro ⟨s, e⟩ hq ⟨s', e'⟩ hq' hqs hq's hne
        obtain ⟨hse, hge⟩ := Aux.mem_enum_getD slotsMap s e none hq
        obtain ⟨hse', hge'⟩ := Aux.mem_enum_getD slotsMap s' e' none hq'
        exact hdense_inj s s' (by rw [hge]; exact hqs)
          (by rw [hge']; exact hq's) hne)
      (by
        rintro ⟨s, e⟩ hq hqs
        obtain ⟨hse, hge⟩ := Aux.mem_enum_getD slotsMap s e none hq
        rw [List.length_replicate]
        exact hdense_lt s (by rw [hge]; exact hqs))
  have hm_len' : (map_loop (build_remap_and_map slotsMap len).1 len
      slotsMap.enum (List.replicate len none)).length = len := by
    rw [hm_len, List.length_replicate]
  have hall : ∀ x ∈ map_loop (build_remap_and_map slotsMap len).1 len
      slotsMap.enum (List.replicate len none), x.isSome := by
    intro x hx
    obtain ⟨d, hdlt, hgd⟩ := Aux.mem_getD _ x none hx
    rw [hm_len'] at hdlt
    obtain ⟨s, hPs, hds⟩ := hdense_surj d hdlt
    obtain ⟨j, hj⟩ := Option.isSome_iff_exists.mp hPs
    have henm : (s, some j) ∈ slotsMap.enum := by
      have hsl2 : s < slotsMap.length := hassigned_lt s hPs
      have he := Aux.enum_getD_mem slotsMap s none hsl2
      rwa [hj] at he
    have hset := hm_set s j henm
    rw [hds, hgd] at hset
    rw [hset]
    rfl
  obtain ⟨m, hm_some⟩ := Aux.list_all_some_of_forall _ hall
  have hm'_eq : map_loop (build_remap_and_map slotsMap len).1 len
      slotsMap.enum (List.replicate len none) = m.map some :=
    Aux.list_all_some_eq _ m hm_some
  have hmlen : m.length = len := by
    have hc := congrArg List.length hm'_eq
    rw [hm_len'] at hc
    simpa using hc.symm
  have htrans : ∀ d j, d < len →
      (map_loop (build_remap_and_map slotsMap len).1 len
        slotsMap.enum (List.replicate len none)).getD d none = some j →
      m.getD d 0 = j := by
    intro d j hd hgd
    rw [hm'_eq] at hgd
    have hdm : d < m.length := by omega
    rw [Aux.getD_map m some d hdm none] at hgd
    have hj := Option.some.inj hgd
    rw [Aux.getD_eq_get m d 0 hdm]
    exact hj
  have hassign_dense : ∀ s j, slotsMap.getD s none = some j →
      dense_of (build_remap_and_map slotsMap len).1 len s < len ∧
      m.getD (dense_of (build_remap_and_map slotsMap len).1 len s) 0 = j := by
    intro s j hsj
    have hPs : (slotsMap.getD s none).isSome := by rw [hsj]; rfl
    have hdl := hdense_lt s hPs
    refine ⟨hdl, ?_⟩
    have henm : (s, some j) ∈ slotsMap.enum := by
      have hsl2 := hassigned_lt s hPs
      have he := Aux.enum_getD_mem slotsMap s none hsl2
      rwa [hsj] at he
    exact htrans _ j hdl (hm_set s j henm)
  have hval : ∀ d, d < len → ∃ s j, slotsMap.getD s none = some j ∧
      dense_of (build_remap_and_map slotsMap len).1 len s = d ∧
      m.getD d 0 = j := by
    intro d hd
    obtain ⟨s, hPs, hds⟩ := hdense_surj d hd
    obtain ⟨j, hj⟩ := Option.isSome_iff_exists.mp hPs
    obtain ⟨-, hmd⟩ := hassign_dense s j hj
    exact ⟨s, j, hj, hds, by rw [← hds]; exact hmd⟩
  have hm_nodup : m.Nodup := by
    rw [List.nodup_iff_injective_get]
    rintro ⟨d, hd⟩ ⟨d', hd'⟩ he
    have hd2 : d < len := by omega
    have hd2' : d' < len := by omega
    obtain ⟨s, j, hsj, hds, hmd⟩ := hval d hd2
    obtain ⟨s', j', hsj', hds', hmd'⟩ := hval d' hd2'
    have hgdD : m.getD d 0 = m.getD d' 0 := by
      rw [Aux.getD_eq_get m d 0 hd, Aux.getD_eq_get m d' 0 hd', he]
    rw [hmd, hmd'] at hgdD
    subst hgdD
    have hss : s = s' := H2 s s' j hsj hsj'
    apply Fin.ext
    show d = d'
    rw [← hds, ← hds', hss]
  have hm_memiff : ∀ x, x ∈ m ↔ x ∈ List.range len := by
    intro x
    constructor
    · intro hx
      obtain ⟨d, hdlt, hgd⟩ := Aux.mem_getD m x 0 hx
      have hd2 : d < len := by omega
      obtain ⟨s, j, hsj, -, hmd⟩ := hval d hd2
      rw [List.mem_range, ← hgd, hmd]
      exact H1 s j hsj
    · intro hx
      rw [List.mem_range] at hx
      obtain ⟨s, hs⟩ := H3 x hx
      obtain ⟨hdl, hmd⟩ := hassign_dense s x hs
      rw [← hmd]
      exact Aux.getD_mem m _ 0 (by omega)
  refine ⟨hrm_length, ?_, hcount, hrm_pairs, ?_, m, ?_, hmlen,
    (List.perm_ext_iff_of_nodup hm_nodup (List.nodup_range len)).mpr hm_memiff,
    hassign_dense⟩
  · intro r hr
    obtain ⟨idx, hidx, hgd⟩ := Aux.mem_getD _ r 0 hr
    rcases hrm_entries idx with hacc | hfreemem
    · rw [hgd] at hacc
      rw [hacc, Aux.getD_replicate _ _ _ _ (by
        rw [hrm_length] at hidx
        exact hidx)]
      exact hlen0
    · rw [hgd] at hfreemem
      exact ((hfree_mem r).mp hfreemem).1
  · intro s h1 h2 h3
    rw [hrm_unass s (List.mem_range'_1.mpr ⟨h1, by omega⟩) h3]
    exact Aux.getD_replicate _ _ _ _ (by omega)
  · rw [hbuild2]
    exact hm_some

/-! Sizing bounds under the (generous) input bound `len ≤ 2^30`, below
which none of the `as u32` casts of the source truncate. -/

theorem bucket_count_pos (len : Nat) : 0 < bucket_count len :=
  Nat.lt_of_lt_of_le Nat.zero_lt_one (le_max_right _ 1)

theorem npt_go_pos (n : Nat) : ∀ fuel power, 0 < power → 0 < npt_go n fuel power := by
  intro fuel
  induction fuel with
  | zero => intro power h; exact h
  | succ f ih =>
    intro power h
    unfold npt_go
    split
    · exact h
    · exact ih _ (by omega)

theorem npt_go_le_cap (n : Nat) : ∀ fuel power k, 0 < power → n ≤ power * 2 ^ k →
    npt_go n fuel power ≤ power * 2 ^ k := by
  intro fuel
  induction fuel with
  | zero =>
    intro power k h0 hnB
    exact Nat.le_mul_of_pos_right power (Nat.pos_pow_of_pos _ (by norm_num))
  | succ f ih =>
    intro power k h0 hnB
    unfold npt_go
    split
    · exact Nat.le_mul_of_pos_right power (Nat.pos_pow_of_pos _ (by norm_num))
    · rename_i hgt
      match k with
      | 0 =>
        exfalso
        simp at hnB
        omega
      | k + 1 =>
        have hB : power * 2 ^ (k + 1) = power * 2 * 2 ^ k := by ring
        rw [hB]
        rw [hB] at hnB
        exact ih (power * 2) k (by omega) hnB

theorem npt_go_ge (n : Nat) : ∀ fuel power, n ≤ power * 2 ^ fuel →
    n ≤ npt_go n fuel power := by
  intro fuel
  induction fuel with
  | zero => intro power h; simpa using h
  | succ f ih =>
    intro power h
    unfold npt_go
    split
    · assumption
    · refine ih (power * 2) ?_
      have he : power * 2 * 2 ^ f = power * 2 ^ (f + 1) := by ring
      rw [he]
      exact h

theorem npt_go_pow (n : Nat) : ∀ fuel j, ∃ k, npt_go n fuel (2 ^ j) = 2 ^ k := by
  intro fuel
  induction fuel with
  | zero => intro j; exact ⟨j, rfl⟩
  | succ f ih =>
    intro j
    unfold npt_go
    split
    · exact ⟨j, rfl⟩
    · have he : (2 : Nat) ^ j * 2 = 2 ^ (j + 1) := by ring
      rw [he]
      exact ih (j + 1)

theorem npt_go_lt_double (n : Nat) : ∀ fuel power, power < 2 * n →
    npt_go n fuel power < 2 * n := by
  intro fuel
  induction fuel with
  | zero => intro power h; exact h
  | succ f ih =>
    intro power h
    unfold npt_go
    split
    · exact h
    · rename_i hng
      exact ih (power * 2) (by omega)

/-- The fuelled doubling loop computes exactly Rust's
`next_power_of_two`: the result is a power of two, at least `n`, below
`2 * n` for positive `n` (hence the least power of two that is `≥ n`),
and `1` for `n = 0`. -/
theorem next_power_of_two_spec (n : Nat) :
    n ≤ next_power_of_two n ∧ (∃ k, next_power_of_two n = 2 ^ k) ∧
    (0 < n → next_power_of_two n < 2 * n) ∧ next_power_of_two 0 = 1 := by
  refine ⟨?_, ?_, ?_, rfl⟩
  · refine npt_go_ge n n 1 ?_
    have h := Nat.lt_two_pow n
    omega
  · have := npt_go_pow n n 0
    simpa using this
  · intro h0
    exact npt_go_lt_double n n 1 (by omega)

theorem slot_count_pos (len : Nat) : 0 < slot_count len :=
  npt_go_pos _ _ 1 Nat.one_pos

theorem bucket_count_bound (len : Nat) (h : len ≤ 2 ^ 30) :
    bucket_count len < 2 ^ 32 := by
  have h30 : (2 : Nat) ^ 30 = 1073741824 := by norm_num
  have h32 : (2 : Nat) ^ 32 = 4294967296 := by norm_num
  unfold bucket_count DEFAULT_BUCKET_SIZE
  omega

theorem slot_count_bound (len : Nat) (h : len ≤ 2 ^ 30) :
    slot_count len < 2 ^ 32 := by
  have htarget : max ((20 * len + 16) / 17) (max len 1) ≤ 2 ^ 31 := by
    have h30 : (2 : Nat) ^ 30 = 1073741824 := by norm_num
    have h31 : (2 : Nat) ^ 31 = 2147483648 := by norm_num
    omega
  have hle : slot_count len ≤ 2 ^ 31 := by
    have hcap := npt_go_le_cap (max ((20 * len + 16) / 17) (max len 1))
      (max ((20 * len + 16) / 17) (max len 1)) 1 31 Nat.one_pos
      (by simpa using htarget)
    unfold slot_count next_power_of_two
    simpa using hcap
  have h3132 : (2 : Nat) ^ 31 < 2 ^ 32 := by norm_num
  omega

/-- Bridge between the two textually identical copies of the integer
mixers in `phf_generator` and `phf_shared`. -/
theorem shared_fast_reduce_eq (h n : Nat) :
    Shared.fast_reduce h n = fast_reduce h n := rfl

/-- Evaluation of the lookup `get_index` on a non-degenerate table:
the bucket lookup cannot panic, and the computed slot is exactly the
solver's `slot_for` under the bucket's pilot. -/
theorem get_index_eval (hsh : Shared.PtrHashes) (key B S : Nat)
    (pilots remap : List Nat) (len : Nat)
    (hB0 : 0 < B) (hB32 : B < 2 ^ 32) (hplen : pilots.length = B) :
    Shared.get_index hsh key B S pilots remap len =
      (if slot_for hsh (pilots.getD (fast_reduce hsh.h1 B) 0) key S < len
       then some (slot_for hsh (pilots.getD (fast_reduce hsh.h1 B) 0) key S)
       else remap.get? (slot_for hsh (pilots.getD (fast_reduce hsh.h1 B) 0) key S - len)) := by
  unfold Shared.get_index
  rw [if_neg (by omega)]
  rw [show Shared.fast_reduce hsh.h1 B = fast_reduce hsh.h1 B from rfl]
  dsimp only
  rw [Aux.get?_eq_getD pilots _ 0
    (by rw [hplen]; exact Aux.fast_reduce_lt _ _ hB0 hB32)]
  rfl

/-- The workhorse: everything a successful `try_generate` guarantees. -/
theorem try_generate_sound {T : Type} (hash_fn : T → Nat → Shared.PtrHashes)
    (entries : List T) (seed : Nat) (st : HashState)
    (hseed : seed < 2 ^ 64)
    (hsize : entries.length ≤ 2 ^ 30)
    (hne : entries ≠ [])
    (h : try_generate hash_fn entries seed = some st) :
    st.key = seed ∧
    st.buckets = bucket_count entries.length ∧
    st.slots = slot_count entries.length ∧
    st.pilots.length = bucket_count entries.length ∧
    st.remap.length = slot_count entries.length - entries.length ∧
    st.map.length = entries.length ∧
    (∀ r ∈ st.remap, r < entries.length) ∧
    st.map.Perm (List.range entries.length) ∧
    (∀ b, st.pilots.getD b 0 ≤ MAX_PILOT_TRIES) ∧
    (∀ b, (∀ j, j < entries.length →
      bucket_of (entries.map fun e => hash_fn e seed)
        (bucket_count entries.length) j ≠ b) →
      st.pilots.getD b 0 = 0) ∧
    (∀ hq : Shared.PtrHashes, ∃ d,
      Shared.get_index hq seed st.buckets st.slots st.pilots st.remap
        entries.length = some d ∧ d < entries.length) ∧
    (∀ j, j < entries.length → ∃ d,
      Shared.get_index ((entries.map fun e => hash_fn e seed).getD j ⟨0, 0⟩)
        seed st.buckets st.slots st.pilots st.remap entries.length = some d ∧
      d < entries.length ∧ st.map.getD d 0 = j) := by
  have hlen0 : 0 < entries.length := List.length_pos.mpr hne
  have hB0 := bucket_count_pos entries.length
  have hS0 := slot_count_pos entries.length
  have hB32 := bucket_count_bound entries.length hsize
  have hS32 := slot_count_bound entries.length hsize
  have hBmod : bucket_count entries.length % 2 ^ 32 = bucket_count entries.length :=
    Nat.mod_eq_of_lt hB32
  have hSmod : slot_count entries.length % 2 ^ 32 = slot_count entries.length :=
    Nat.mod_eq_of_lt hS32
  have hseedmod : seed % 2 ^ 64 = seed := Nat.mod_eq_of_lt hseed
  have hhlen : (entries.map fun e => hash_fn e seed).length = entries.length :=
    List.length_map _ _
  unfold try_generate at h
  simp only [hBmod, hSmod, hseedmod] at h
  split at h
  · exact absurd h (by simp)
  · rename_i pilots slotsMap hbl
    split at h
    · exact absurd h (by simp)
    · rename_i remap m heq2
      have hst : st = ⟨seed, bucket_count entries.length, slot_count entries.length,
          pilots, remap, m⟩ := (Option.some.inj h).symm
      subst hst
      -- bucket order facts
      set ord := (sort_by
        (fun a b => ((buckets_vec (entries.map fun e => hash_fn e seed)
          (bucket_count entries.length) (bucket_count entries.length)).getD a []).length
          ≤ ((buckets_vec (entries.map fun e => hash_fn e seed)
            (bucket_count entries.length)
            (bucket_count entries.length)).getD b []).length)
        (List.range (bucket_count entries.length))).reverse with hord
      have horder_perm : ord.Perm (List.range (bucket_count entries.length)) := by
        rw [hord]
        exact (List.reverse_perm _).trans (sort_by_perm _ _)
      have horder_nd : ord.Nodup :=
        horder_perm.nodup_iff.mpr (List.nodup_range _)
      have horder_mem : ∀ b, (b ∈ ord) ↔ b < bucket_count entries.length := by
        intro b
        rw [horder_perm.mem_iff, List.mem_range]
      obtain ⟨hpl', hsl', hback', hfwd', hbound', hzero'⟩ :=
        bucket_loop_sound (entries.map fun e => hash_fn e seed) seed
          (slot_count entries.length) (bucket_count entries.length)
          hS0 hS32 hB0 hB32 _
          (List.replicate (bucket_count entries.length) 0)
          (List.replicate (slot_count entries.length) none)
          (List.replicate (slot_count entries.length) 0) 0 pilots slotsMap
          horder_nd
          (List.length_replicate _ _) (List.length_replicate _ _)
          (List.length_replicate _ _)
          (by
            intro s j hs
            exfalso
            by_cases hslt : s < slot_count entries.length
            · rw [Aux.getD_replicate _ _ _ _ hslt] at hs
              exact Option.noConfusion hs
            · rw [Aux.getD_of_le _ _ _ (by
                rw [List.length_replicate]
                omega)] at hs
              exact Option.noConfusion hs)
          (by
            intro j hj hnb
            exfalso
            apply hnb
            rw [horder_mem]
            exact bucket_of_lt _ _ _ hB0 hB32)
          (by
            intro b
            by_cases hb : b < bucket_count entries.length
            · rw [Aux.getD_replicate _ _ _ _ hb]
              exact Nat.zero_le _
            · rw [Aux.getD_of_le _ _ _ (by
                rw [List.length_replicate]
                omega)]
              exact Nat.zero_le _)
          (by
            intro b _
            by_cases hb : b < bucket_count entries.length
            · exact Aux.getD_replicate _ _ _ _ hb
            · exact Aux.getD_of_le _ _ _ (by
                rw [List.length_replicate]
                omega))
          hbl
      -- feed the remap/map construction
      have hH1 : ∀ s j, slotsMap.getD s none = some j → j < entries.length := by
        intro s j hs
        have := (hback' s j hs).1
        rwa [hhlen] at this
      have hH2 : ∀ s s' j, slotsMap.getD s none = some j →
          slotsMap.getD s' none = some j → s = s' := by
        intro s s' j hs hs'
        rw [(hback' s j hs).2, (hback' s' j hs').2]
      have hH3 : ∀ j, j < entries.length → ∃ s, slotsMap.getD s none = some j := by
        intro j hj
        exact ⟨_, hfwd' j (by rwa [hhlen])⟩
      obtain ⟨hrmlen, hrment, hcnt, hpairs, hunass, mm, hmm2, hmmlen, hmmperm, hmmdense⟩ :=
        build_remap_and_map_sound slotsMap entries.length hlen0 hH1 hH2 hH3
      have hb1 : (build_remap_and_map slotsMap entries.length).1 = remap := by
        rw [heq2]
      have hmme : mm = m := by
        have hmm2' := hmm2
        rw [heq2] at hmm2'
        exact (Option.some.inj hmm2').symm
      subst hmme
      rw [hb1] at hrmlen hrment hmmdense
      rw [hsl'] at hrmlen
      -- the final lookup facts
      have hget : ∀ hq : Shared.PtrHashes,
          Shared.get_index hq seed (bucket_count entries.length)
            (slot_count entries.length) pilots remap entries.length
          = some (dense_of remap entries.length
              (slot_for hq (pilots.getD (fast_reduce hq.h1
                (bucket_count entries.length)) 0) seed
                (slot_count entries.length))) := by
        intro hq
        rw [get_index_eval hq seed _ _ pilots remap entries.length hB0 hB32 hpl']
        by_cases hlt : slot_for hq (pilots.getD (fast_reduce hq.h1
            (bucket_count entries.length)) 0) seed
            (slot_count entries.length) < entries.length
        · rw [if_pos hlt,
            show dense_of remap entries.length
              (slot_for hq (pilots.getD (fast_reduce hq.h1
                (bucket_count entries.length)) 0) seed
                (slot_count entries.length))
              = slot_for hq (pilots.getD (fast_reduce hq.h1
                (bucket_count entries.length)) 0) seed
                (slot_count entries.length) from by
              unfold dense_of
              rw [if_pos hlt]]
        · rw [if_neg hlt,
            Aux.get?_eq_getD remap _ 0 (by
              rw [hrmlen]
              have hslot := Aux.slot_for_lt hq (pilots.getD (fast_reduce hq.h1
                (bucket_count entries.length)) 0) seed
                (slot_count entries.length) hS0 hS32
              omega),
            show dense_of remap entries.length
              (slot_for hq (pilots.getD (fast_reduce hq.h1
                (bucket_count entries.length)) 0) seed
                (slot_count entries.length))
              = remap.getD (slot_for hq (pilots.getD (fast_reduce hq.h1
                (bucket_count entries.length)) 0) seed
                (slot_count entries.length) - entries.length) 0 from by
              unfold dense_of
              rw [if_neg hlt]]
      have hdense_lt_any : ∀ hq : Shared.PtrHashes,
          dense_of remap entries.length
            (slot_for hq (pilots.getD (fast_reduce hq.h1
              (bucket_count entries.length)) 0) seed
              (slot_count entries.length)) < entries.length := by
        intro hq
        by_cases hlt : slot_for hq (pilots.getD (fast_reduce hq.h1
            (bucket_count entries.length)) 0) seed
            (slot_count entries.length) < entries.length
        · unfold dense_of
          rw [if_pos hlt]
          exact hlt
        · unfold dense_of
          rw [if_neg hlt]
          apply hrment
          apply Aux.getD_mem
          rw [hrmlen]
          have hslot := Aux.slot_for_lt hq (pilots.getD (fast_reduce hq.h1
            (bucket_count entries.length)) 0) seed
            (slot_count entries.length) hS0 hS32
          omega
      refine ⟨rfl, rfl, rfl, hpl', hrmlen, hmmlen, hrment, hmmperm, hbound',
        ?_, ?_, ?_⟩
      · intro b hb
        apply hzero' b
        intro j hj
        exact hb j (by rwa [hhlen] at hj)
      · intro hq
        exact ⟨_, hget hq, hdense_lt_any hq⟩
      · intro j hj
        refine ⟨_, hget ((entries.map fun e => hash_fn e seed).getD j ⟨0, 0⟩), hdense_lt_any _, ?_⟩
        have hfj := hfwd' j (by rwa [hhlen])
        have hmd := hmmdense _ j hfj
        exact hmd.2

/-- Any result of the (fuelled) seed loop is a successful
`try_generate` at one of the drawn seeds. -/
theorem seed_loop_cases {T : Type} (hash_fn : T → Nat → Shared.PtrHashes)
    (entries : List T) :
    ∀ fuel i st, seed_loop hash_fn entries fuel i = some st →
      ∃ k, try_generate hash_fn entries (seed_stream k) = some st := by
  intro fuel
  induction fuel with
  | zero => intro i st h; exact absurd h (by simp [seed_loop])
  | succ n ih =>
    intro i st h
    unfold seed_loop at h
    split at h
    · rename_i st0 heq
      exact ⟨i, by rw [heq, h]⟩
    · exact ih (i + 1) st h

/-- Case analysis for `generate_hash`: the empty input returns the
all-zero state, any other success comes from `try_generate` at a seed
drawn from the fixed-seed PRNG (hence a value below `2^64`). -/
theorem generate_hash_cases {T : Type} (hash_fn : T → Nat → Shared.PtrHashes)
    (fuel : Nat) (entries : List T) (st : HashState)
    (h : generate_hash hash_fn fuel entries = some st) :
    (entries = [] ∧ st = ⟨0, 0, 0, [], [], []⟩) ∨
    (entries ≠ [] ∧ ∃ seed, seed < 2 ^ 64 ∧
      try_generate hash_fn entries seed = some st) := by
  unfold generate_hash generate_ptrhash_with_hashes at h
  split at h
  · rename_i he
    exact Or.inl ⟨List.isEmpty_iff.mp he, (Option.some.inj h).symm⟩
  · rename_i he
    right
    refine ⟨fun hc => he (by simp [hc]), ?_⟩
    obtain ⟨k, hk⟩ := seed_loop_cases hash_fn entries fuel 0 st h
    exact ⟨seed_stream k, Aux.splitmix64_lt _, hk⟩

theorem bucket_count_eq (len : Nat) :
    bucket_count len = max 1 ((len + 2) / 3) := by
  show max ((len + 3 - 1) / 3) 1 = max 1 ((len + 2) / 3)
  omega

theorem slot_count_eq (len : Nat) (h : 0 < len) :
    slot_count len = next_power_of_two (max len ((20 * len + 16) / 17)) := by
  show next_power_of_two (max ((20 * len + 16) / 17) (max len 1))
    = next_power_of_two (max len ((20 * len + 16) / 17))
  congr 1
  omega

end Gen

namespace Codegen

theorem find_dup_none {K : Type} [DecidableEq K] :
    ∀ (l seen : List K), find_dup seen l = none ↔
      (l.Nodup ∧ ∀ x ∈ l, x ∉ seen) := by
  intro l
  induction l with
  | nil => intro seen; simp [find_dup]
  | cons k ks ih =>
    intro seen
    unfold find_dup
    split
    · rename_i hk
      constructor
      · intro h; exact Option.noConfusion h
      · rintro ⟨-, h2⟩
        exact absurd hk (h2 k (List.mem_cons_self _ _))
    · rename_i hk
      rw [ih (k :: seen)]
      constructor
      · rintro ⟨h1, h2⟩
        refine ⟨List.nodup_cons.mpr ⟨?_, h1⟩, ?_⟩
        · intro hmem
          exact (h2 k hmem) (List.mem_cons_self _ _)
        · intro x hx
          rcases List.mem_cons.mp hx with rfl | hx'
          · exact hk
          · intro hxs
            exact (h2 x hx') (List.mem_cons_of_mem _ hxs)
      · rintro ⟨h1, h2⟩
        refine ⟨(List.nodup_cons.mp h1).2, ?_⟩
        intro x hx hxk
        rcases List.mem_cons.mp hxk with rfl | hxs
        · exact (List.nodup_cons.mp h1).1 hx
        · exact (h2 x (List.mem_cons_of_mem _ hx)) hxs

theorem find_dup_some_mem {K : Type} [DecidableEq K] :
    ∀ (l seen : List K) k, find_dup seen l = some k → k ∈ l := by
  intro l
  induction l with
  | nil => intro seen k h; exact absurd h (by simp [find_dup])
  | cons k0 ks ih =>
    intro seen k h
    unfold find_dup at h
    split at h
    · exact (Option.some.inj h) ▸ List.mem_cons_self _ _
    · exact List.mem_cons_of_mem _ (ih (k0 :: seen) k h)

end Codegen

/-! The frozen claims. -/

/-- Shared hash function used by the concrete witnesses (the default
SipHash-1-3 hasher lives in the external `siphasher` crate, so witnesses
exercise the solver through its hash-function parameter). -/
def hf_nat : Nat → Nat → Shared.PtrHashes := fun e _ => ⟨0, e⟩

/-- String-keyed hash function used by the concrete witnesses. -/
def hf_str : String → Nat → Shared.PtrHashes := fun _ _ => ⟨0, 0⟩

set_option maxRecDepth 8000

/-- C1: for every slice of keys on which `generate_hash` succeeds, every
input position `i` satisfies `get_index(hash(k_i, key), …) ∈ [0, N)` and
`map[get_index(…)] = i`; consequently no two distinct input keys resolve
to the same dense slot. -/
theorem C1_perfect_mapping {T : Type} (hash_fn : T → Nat → Shared.PtrHashes)
    (fuel : Nat) (entries : List T) (st : Gen.HashState)
    (hgen : Gen.generate_hash hash_fn fuel entries = some st)
    (hsize : entries.length ≤ 2 ^ 30) :
    (∀ j (hj : j < entries.length), ∃ d,
      Shared.get_index (hash_fn (entries.get ⟨j, hj⟩) st.key) st.key st.buckets
        st.slots st.pilots st.remap entries.length = some d ∧
      d < entries.length ∧ st.map.getD d 0 = j) ∧
    (∀ i j (hi : i < entries.length) (hj : j < entries.length) d,
      Shared.get_index (hash_fn (entries.get ⟨i, hi⟩) st.key) st.key st.buckets
        st.slots st.pilots st.remap entries.length = some d →
      Shared.get_index (hash_fn (entries.get ⟨j, hj⟩) st.key) st.key st.buckets
        st.slots st.pilots st.remap entries.length = some d →
      i = j) := by
  rcases Gen.generate_hash_cases hash_fn fuel entries st hgen with
    ⟨rfl, rfl⟩ | ⟨hne, seed, hseed, htry⟩
  · constructor
    · intro j hj; exact absurd hj (by simp)
    · intro i j hi _; exact absurd hi (by simp)
  · obtain ⟨hkey, -, -, -, -, -, -, -, -, -, -, hperkey⟩ :=
      Gen.try_generate_sound hash_fn entries seed st hseed hsize hne htry
    subst hkey
    constructor
    · intro j hj
      obtain ⟨d, hd1, hd2, hd3⟩ := hperkey j hj
      rw [Aux.getD_map entries (fun e => hash_fn e st.key) j hj ⟨0, 0⟩] at hd1
      exact ⟨d, hd1, hd2, hd3⟩
    · intro i j hi hj d h1 h2
      obtain ⟨di, hdi1, hdi2, hdi3⟩ := hperkey i hi
      obtain ⟨dj, hdj1, hdj2, hdj3⟩ := hperkey j hj
      rw [Aux.getD_map entries (fun e => hash_fn e st.key) i hi ⟨0, 0⟩] at hdi1
      rw [Aux.getD_map entries (fun e => hash_fn e st.key) j hj ⟨0, 0⟩] at hdj1
      rw [h1] at hdi1
      rw [h2] at hdj1
      obtain rfl := Option.some.inj hdi1
      obtain rfl := Option.some.inj hdj1
      rw [← hdi3, ← hdj3]

/-- C1 witness: a concrete two-key table where both keys resolve to
distinct dense slots pointing back at their input positions. -/
theorem C1_witness :
    (∃ d, Shared.get_index (hf_nat 0 5145724004617983535) 5145724004617983535
      1 4 [0] [0, 1] 2 = some d ∧ d < 2 ∧ ([0, 1] : List Nat).getD d 0 = 0) ∧
    (∃ d, Shared.get_index (hf_nat 1 5145724004617983535) 5145724004617983535
      1 4 [0] [0, 1] 2 = some d ∧ d < 2 ∧ ([0, 1] : List Nat).getD d 0 = 1) :=
  ⟨(C1_perfect_mapping hf_nat 1 [0, 1]
      ⟨5145724004617983535, 1, 4, [0], [0, 1], [0, 1]⟩ (by rfl) (by norm_num)).1
      0 (by norm_num),
   (C1_perfect_mapping hf_nat 1 [0, 1]
      ⟨5145724004617983535, 1, 4, [0], [0, 1], [0, 1]⟩ (by rfl) (by norm_num)).1
      1 (by norm_num)⟩

/-- C2: on every nonempty input on which `generate_hash` succeeds, the
returned parameters satisfy `B = max(1, ⌈N/3⌉)`,
`S = next_power_of_two(max(N, ⌈N/0.85⌉))`, `|pilots| = B`,
`|remap| = S − N` and `|map| = N`. -/
theorem C2_parameter_bounds {T : Type} (hash_fn : T → Nat → Shared.PtrHashes)
    (fuel : Nat) (entries : List T) (st : Gen.HashState)
    (hgen : Gen.generate_hash hash_fn fuel entries = some st)
    (hne : entries ≠ [])
    (hsize : entries.length ≤ 2 ^ 30) :
    st.buckets = max 1 ((entries.length + 2) / 3) ∧
    st.slots = Gen.next_power_of_two
      (max entries.length ((20 * entries.length + 16) / 17)) ∧
    st.pilots.length = st.buckets ∧
    st.remap.length = st.slots - entries.length ∧
    st.map.length = entries.length := by
  rcases Gen.generate_hash_cases hash_fn fuel entries st hgen with
    ⟨he, -⟩ | ⟨-, seed, hseed, htry⟩
  · exact absurd he hne
  · have hlen0 : 0 < entries.length := List.length_pos.mpr hne
    obtain ⟨-, hbuckets, hslots, hpl, hrl, hml, -⟩ :=
      Gen.try_generate_sound hash_fn entries seed st hseed hsize hne htry
    refine ⟨?_, ?_, ?_, ?_, hml⟩
    · rw [hbuckets, Gen.bucket_count_eq]
    · rw [hslots, Gen.slot_count_eq entries.length hlen0]
    · rw [hpl, hbuckets]
    · rw [hrl, hslots]

/-- C2 witness: the concrete two-key table has `B = 1`, `S = 4` and the
stated component lengths. -/
theorem C2_witness :
    (1 : Nat) = max 1 ((2 + 2) / 3) ∧
    (4 : Nat) = Gen.next_power_of_two (max 2 ((20 * 2 + 16) / 17)) ∧
    ([0] : List Nat).length = 1 ∧
    ([0, 1] : List Nat).length = 4 - 2 ∧
    ([0, 1] : List Nat).length = 2 :=
  C2_parameter_bounds hf_nat 1 [0, 1]
    ⟨5145724004617983535, 1, 4, [0], [0, 1], [0, 1]⟩ (by rfl) (by simp)
    (by norm_num)

/-- C3 counterexample: the claim says the solver tries pilot values
`0, 1, …, 8191`; the source's loop is `0..=MAX_PILOT_TRIES` with
`MAX_PILOT_TRIES = 8192`, so the tried list has 8193 entries and ends at
`8192 > 8191`. -/
theorem C3_counterexample :
    Gen.MAX_PILOT_TRIES = 8192 ∧
    Gen.pilot_tries ≠ List.range 8192 ∧
    (8192 : Nat) ∈ Gen.pilot_tries := by
  refine ⟨rfl, ?_, ?_⟩
  · intro he
    have hc := congrArg List.length he
    rw [Gen.pilot_tries, Gen.range_from_eq] at hc
    simp [Gen.MAX_PILOT_TRIES] at hc
  · rw [Gen.pilot_tries, Gen.range_from_eq, List.mem_range'_1]
    simp [Gen.MAX_PILOT_TRIES]

/-- C3 (amended): the solver tries pilot values `0, 1, …, 8192`
(`0..=MAX_PILOT_TRIES` with `MAX_PILOT_TRIES = 8192`); in every returned
state `pilots[b] ≤ 8192` for every bucket and empty buckets retain
pilot `0`. -/
theorem C3_pilot_bounds {T : Type} (hash_fn : T → Nat → Shared.PtrHashes)
    (fuel : Nat) (entries : List T) (st : Gen.HashState)
    (hgen : Gen.generate_hash hash_fn fuel entries = some st)
    (hsize : entries.length ≤ 2 ^ 30) :
    (∀ b, st.pilots.getD b 0 ≤ Gen.MAX_PILOT_TRIES) ∧
    (∀ b, (∀ j (hj : j < entries.length),
        Gen.fast_reduce (hash_fn (entries.get ⟨j, hj⟩) st.key).h1 st.buckets ≠ b) →
      st.pilots.getD b 0 = 0) := by
  rcases Gen.generate_hash_cases hash_fn fuel entries st hgen with
    ⟨rfl, rfl⟩ | ⟨hne, seed, hseed, htry⟩
  · exact ⟨fun b => by simp, fun b _ => by simp⟩
  · obtain ⟨hkey, hbuckets, -, -, -, -, -, -, hbound, hzero, -⟩ :=
      Gen.try_generate_sound hash_fn entries seed st hseed hsize hne htry
    subst hkey
    refine ⟨hbound, ?_⟩
    intro b hb
    apply hzero
    intro j hj
    have hb' := hb j hj
    rw [hbuckets] at hb'
    rw [show Gen.bucket_of (entries.map fun e => hash_fn e st.key)
        (Gen.bucket_count entries.length) j
      = Gen.fast_reduce ((entries.map fun e => hash_fn e st.key).getD j
          ⟨0, 0⟩).h1 (Gen.bucket_count entries.length) from rfl,
      Aux.getD_map entries (fun e => hash_fn e st.key) j hj ⟨0, 0⟩]
    exact hb'

/-- C3 amended witness: the concrete two-key table has its only pilot
bounded by `MAX_PILOT_TRIES` and keeps pilot `0` on buckets no key maps
to. -/
theorem C3_witness :
    ([0] : List Nat).getD 0 0 ≤ Gen.MAX_PILOT_TRIES ∧
    ([0] : List Nat).getD 5 0 = 0 :=
  ⟨(C3_pilot_bounds hf_nat 1 [0, 1]
      ⟨5145724004617983535, 1, 4, [0], [0, 1], [0, 1]⟩ (by rfl) (by norm_num)).1 0,
   (C3_pilot_bounds hf_nat 1 [0, 1]
      ⟨5145724004617983535, 1, 4, [0], [0, 1], [0, 1]⟩ (by rfl) (by norm_num)).2 5
      (by decide)⟩

/-- C4: for every state produced by `generate_hash` on a nonempty input
and every query hash pair, `get_index` never panics (its two slice
indexings stay in bounds, modelled by a `some` result) and returns an
index strictly below `N`. -/
theorem C4_lookup_total {T : Type} (hash_fn : T → Nat → Shared.PtrHashes)
    (fuel : Nat) (entries : List T) (st : Gen.HashState)
    (hgen : Gen.generate_hash hash_fn fuel entries = some st)
    (hne : entries ≠ [])
    (hsize : entries.length ≤ 2 ^ 30) :
    ∀ hq : Shared.PtrHashes, ∃ d,
      Shared.get_index hq st.key st.buckets st.slots st.pilots st.remap
        entries.length = some d ∧ d < entries.length := by
  rcases Gen.generate_hash_cases hash_fn fuel entries st hgen with
    ⟨he, -⟩ | ⟨-, seed, hseed, htry⟩
  · exact absurd he hne
  · obtain ⟨hkey, -, -, -, -, -, -, -, -, -, htotal, -⟩ :=
      Gen.try_generate_sound hash_fn entries seed st hseed hsize hne htry
    subst hkey
    exact htotal

/-- C4 witness: lookup of a hash pair outside the key set still lands in
`[0, 2)`. -/
theorem C4_witness :
    ∃ d, Shared.get_index ⟨12345, 999999⟩ 5145724004617983535 1 4 [0] [0, 1] 2
      = some d ∧ d < 2 :=
  C4_lookup_total hf_nat 1 [0, 1]
    ⟨5145724004617983535, 1, 4, [0], [0, 1], [0, 1]⟩ (by rfl) (by simp)
    (by norm_num) ⟨12345, 999999⟩

/-- C5: `generate_hash` is deterministic — two invocations on the same
input yield identical `HashState` fields; the embedding's seed sequence
is the fixed-seed PRNG stream `seed_stream` derived from
`FIXED_SEED = 1234567890`. -/
theorem C5_deterministic {T : Type} (hash_fn : T → Nat → Shared.PtrHashes)
    (fuel : Nat) (entries : List T) (st₁ st₂ : Gen.HashState)
    (h₁ : Gen.generate_hash hash_fn fuel entries = some st₁)
    (h₂ : Gen.generate_hash hash_fn fuel entries = some st₂) :
    st₁.key = st₂.key ∧ st₁.buckets = st₂.buckets ∧ st₁.slots = st₂.slots ∧
    st₁.pilots = st₂.pilots ∧ st₁.remap = st₂.remap ∧ st₁.map = st₂.map := by
  rw [h₁] at h₂
  obtain rfl := Option.some.inj h₂
  exact ⟨rfl, rfl, rfl, rfl, rfl, rfl⟩

/-- C5 witness: two runs on the concrete two-key input agree on every
field. -/
theorem C5_witness :
    Gen.HashState.key ⟨5145724004617983535, 1, 4, [0], [0, 1], [0, 1]⟩
      = Gen.HashState.key ⟨5145724004617983535, 1, 4, [0], [0, 1], [0, 1]⟩ ∧
    Gen.HashState.buckets ⟨5145724004617983535, 1, 4, [0], [0, 1], [0, 1]⟩
      = Gen.HashState.buckets ⟨5145724004617983535, 1, 4, [0], [0, 1], [0, 1]⟩ ∧
    Gen.HashState.slots ⟨5145724004617983535, 1, 4, [0], [0, 1], [0, 1]⟩
      = Gen.HashState.slots ⟨5145724004617983535, 1, 4, [0], [0, 1], [0, 1]⟩ ∧
    Gen.HashState.pilots ⟨5145724004617983535, 1, 4, [0], [0, 1], [0, 1]⟩
      = Gen.HashState.pilots ⟨5145724004617983535, 1, 4, [0], [0, 1], [0, 1]⟩ ∧
    Gen.HashState.remap ⟨5145724004617983535, 1, 4, [0], [0, 1], [0, 1]⟩
      = Gen.HashState.remap ⟨5145724004617983535, 1, 4, [0], [0, 1], [0, 1]⟩ ∧
    Gen.HashState.map ⟨5145724004617983535, 1, 4, [0], [0, 1], [0, 1]⟩
      = Gen.HashState.map ⟨5145724004617983535, 1, 4, [0], [0, 1], [0, 1]⟩ :=
  C5_deterministic hf_nat 1 [0, 1]
    ⟨5145724004617983535, 1, 4, [0], [0, 1], [0, 1]⟩
    ⟨5145724004617983535, 1, 4, [0], [0, 1], [0, 1]⟩ (by rfl) (by rfl)

/-- C6: the solver's and the lookup's copies of `splitmix64`,
`mix_pilot`, `fast_reduce` and `reduce_pow2` agree bit-for-bit on every
input, and the solver's `slot_for` computes exactly the slot expression
of `get_index` for the same hashes, pilot, seed and slot count. -/
theorem C6_mixers_agree :
    (∀ x, Gen.splitmix64 x = Shared.splitmix64 x) ∧
    (∀ p s, Gen.mix_pilot p s = Shared.mix_pilot p s) ∧
    (∀ h n, Gen.fast_reduce h n = Shared.fast_reduce h n) ∧
    (∀ h n, Gen.reduce_pow2 h n = Shared.reduce_pow2 h n) ∧
    (∀ (h : Shared.PtrHashes) (p seed slots : Nat),
      Gen.slot_for h p seed slots
        = Shared.reduce_pow2 ((h.h2 % 2 ^ 64) ^^^ Shared.mix_pilot p seed) slots) :=
  ⟨fun _ => rfl, fun _ _ => rfl, fun _ _ => rfl, fun _ _ => rfl,
   fun _ _ _ _ => rfl⟩

/-- C7 counterexample: the claim expects `S = 1` and `remap = []` for
the single-key input `"x"`, but `slot_count 1 = 2`, so the solver
returns `S = 2` and `remap = [0]`. -/
theorem C7_counterexample :
    Option.map Gen.HashState.slots (Gen.generate_hash hf_str 1 ["x"]) = some 2 ∧
    (2 : Nat) ≠ 1 ∧
    Option.map Gen.HashState.remap (Gen.generate_hash hf_str 1 ["x"]) = some [0] ∧
    ([0] : List Nat) ≠ [] ∧
    Gen.slot_count 1 = 2 :=
  ⟨by rfl, by norm_num, by rfl, by simp, by rfl⟩

/-- C7 (amended): for any single-key input on which `generate_hash`
succeeds, the state has `B = 1`, `S = 2`, `pilots = [p]` for some `p`,
`remap = [0]`, `map = [0]`, and lookup of the key returns `0`. -/
theorem C7_single_key {T : Type} (hash_fn : T → Nat → Shared.PtrHashes)
    (fuel : Nat) (k : T) (st : Gen.HashState)
    (hgen : Gen.generate_hash hash_fn fuel [k] = some st) :
    st.buckets = 1 ∧ st.slots = 2 ∧ (∃ p, st.pilots = [p]) ∧
    st.remap = [0] ∧ st.map = [0] ∧
    Shared.get_index (hash_fn k st.key) st.key st.buckets st.slots st.pilots
      st.remap 1 = some 0 := by
  rcases Gen.generate_hash_cases hash_fn fuel [k] st hgen with
    ⟨he, -⟩ | ⟨-, seed, hseed, htry⟩
  · exact absurd he (by simp)
  · obtain ⟨hkey, hbuckets, hslots, hpl, hrl, hml, hrb, hmperm, -, -, -, hperkey⟩ :=
      Gen.try_generate_sound hash_fn [k] seed st hseed (by norm_num)
        (by simp) htry
    subst hkey
    have hlk : ([k] : List T).length = 1 := rfl
    rw [hlk] at hbuckets hslots hpl hrl hmperm
    have hb1 : st.buckets = 1 := hbuckets.trans (by rfl)
    have hs2 : st.slots = 2 := hslots.trans (by rfl)
    have hpilots : ∃ p, st.pilots = [p] :=
      List.length_eq_one.mp (hpl.trans (by rfl))
    have hremap : st.remap = [0] := by
      obtain ⟨a, ha⟩ := List.length_eq_one.mp (hrl.trans (by rfl))
      have hmem : a ∈ st.remap := by rw [ha]; exact List.mem_cons_self _ _
      have hab := hrb a hmem
      rw [hlk] at hab
      have ha0 : a = 0 := by omega
      rw [ha, ha0]
    have hmap : st.map = [0] := by
      have hp := hmperm
      rw [show List.range 1 = [0] from rfl] at hp
      exact List.perm_singleton.mp hp
    refine ⟨hb1, hs2, hpilots, hremap, hmap, ?_⟩
    obtain ⟨d, hd1, hd2, -⟩ := hperkey 0 (by simp)
    have hd2' : d < 1 := by simpa using hd2
    have hd0 : d = 0 := by omega
    subst hd0
    rw [show ([k].map fun e => hash_fn e st.key).getD 0 ⟨0, 0⟩
      = hash_fn k st.key from rfl, hlk] at hd1
    exact hd1

/-- C7 amended witness: the concrete single-key run exhibits exactly the
amended shape. -/
theorem C7_witness :
    (1 : Nat) = 1 ∧ (2 : Nat) = 2 ∧ (∃ p, ([0] : List Nat) = [p]) ∧
    ([0] : List Nat) = [0] ∧ ([0] : List Nat) = [0] ∧
    Shared.get_index (hf_str "x" 5145724004617983535) 5145724004617983535
      1 2 [0] [0] 1 = some 0 :=
  C7_single_key hf_str 1 "x" ⟨5145724004617983535, 1, 2, [0], [0], [0]⟩ (by rfl)

/-- C8: the empty input immediately yields the all-zero state, and
`get_index` with `buckets = 0` returns `0` regardless of the other
arguments. -/
theorem C8_empty_input :
    (∀ (T : Type) (hash_fn : T → Nat → Shared.PtrHashes) (fuel : Nat),
      Gen.generate_hash hash_fn fuel ([] : List T)
        = some ⟨0, 0, 0, [], [], []⟩) ∧
    (∀ (h : Shared.PtrHashes) (key slots : Nat) (pilots remap : List Nat)
      (len : Nat), Shared.get_index h key 0 slots pilots remap len = some 0) :=
  ⟨fun _ _ _ => rfl, fun _ _ _ _ _ _ => rfl⟩

/-- C9: `Map::build` reports the first duplicate key without ever
invoking the solver, and on duplicate-free key lists invokes the solver
exactly once. -/
theorem C9_duplicate_gate {K : Type} [DecidableEq K]
    (hash_fn : K → Nat → Shared.PtrHashes) (fuel : Nat) (keys : List K) :
    (¬ keys.Nodup → ∃ k, Codegen.map_build hash_fn fuel keys
      = (Except.error k, 0) ∧ k ∈ keys) ∧
    (keys.Nodup → Codegen.map_build hash_fn fuel keys
      = (Except.ok (Gen.generate_hash hash_fn fuel keys), 1)) := by
  constructor
  · intro hnd
    rcases hfd : Codegen.find_dup [] keys with _ | k
    · exact absurd ((Codegen.find_dup_none keys []).mp hfd).1 hnd
    · refine ⟨k, ?_, Codegen.find_dup_some_mem keys [] k hfd⟩
      unfold Codegen.map_build
      rw [hfd]
  · intro hnd
    unfold Codegen.map_build
    rw [(Codegen.find_dup_none keys []).mpr ⟨hnd, by simp⟩]

/-- C9 witness: `["a","b","a"]` is rejected with offending key reported
and zero solver calls; `["a","b"]` reaches the solver exactly once. -/
theorem C9_witness :
    (∃ k, Codegen.map_build hf_str 1 ["a", "b", "a"]
      = (Except.error k, 0) ∧ k ∈ ["a", "b", "a"]) ∧
    Codegen.map_build hf_str 1 ["a", "b"]
      = (Except.ok (Gen.generate_hash hf_str 1 ["a", "b"]), 1) :=
  ⟨(C9_duplicate_gate hf_str 1 ["a", "b", "a"]).1 (by decide),
   (C9_duplicate_gate hf_str 1 ["a", "b"]).2 (by decide)⟩

/-- C10: for a slots map holding each of the `len` input positions
exactly once, the unassigned dense slots and assigned overflow slots are
equinumerous, each assigned overflow slot receives the next free dense
slot in ascending order (the free iterator never exhausting), remap
entries of unassigned overflow slots stay `0`, and the resulting map is
a permutation containing every input position exactly once (the final
`expect` never fires). -/
theorem C10_remap_construction (slotsMap : List (Option Nat)) (len : Nat)
    (hlen0 : 0 < len)
    (hvals : ∀ o ∈ slotsMap, (Option.getD o 0) < len)
    (hnd : (slotsMap.filterMap id).Nodup)
    (hall : ∀ j, j < len → some j ∈ slotsMap) :
    ((List.range len).filter fun s => ¬ (slotsMap.getD s none).isSome).length
      = ((List.range' len (slotsMap.length - len)).filter
          fun s => (slotsMap.getD s none).isSome).length ∧
    (∀ pr ∈ ((List.range' len (slotsMap.length - len)).filter
          fun s => (slotsMap.getD s none).isSome).zip
        ((List.range len).filter fun s => ¬ (slotsMap.getD s none).isSome),
      (Gen.build_remap_and_map slotsMap len).1.getD (pr.1 - len) 0 = pr.2) ∧
    (∀ s, len ≤ s → s < slotsMap.length → ¬ (slotsMap.getD s none).isSome →
      (Gen.build_remap_and_map slotsMap len).1.getD (s - len) 0 = 0) ∧
    (∃ m, (Gen.build_remap_and_map slotsMap len).2 = some m ∧
      m.Perm (List.range len)) := by
  have H1 : ∀ s j, slotsMap.getD s none = some j → j < len := by
    intro s j hs
    have hslen : s < slotsMap.length := by
      by_contra hc
      rw [Aux.getD_of_le _ _ _ (Nat.le_of_not_lt hc)] at hs
      exact Option.noConfusion hs
    have hmem := Aux.getD_mem slotsMap s none hslen
    rw [hs] at hmem
    simpa using hvals (some j) hmem
  have H2 := Aux.filterMap_nodup_inj slotsMap hnd
  have H3 : ∀ j, j < len → ∃ s, slotsMap.getD s none = some j := by
    intro j hj
    obtain ⟨s, hslen, hs⟩ := Aux.mem_getD slotsMap (some j) none (hall j hj)
    exact ⟨s, hs⟩
  obtain ⟨-, -, hcnt, hpairs, hunass, m, hm2, -, hmperm, -⟩ :=
    Gen.build_remap_and_map_sound slotsMap len hlen0 H1 H2 H3
  exact ⟨hcnt, hpairs, hunass, m, hm2, hmperm⟩

/-- C10 witness: a concrete four-slot map with two keys, one dense and
one overflow assignment. -/
theorem C10_witness :
    (((List.range 2).filter
        fun s => ¬ (([some 1, none, some 0, none] : List (Option Nat)).getD
          s none).isSome).length
      = ((List.range' 2 (([some 1, none, some 0, none] :
          List (Option Nat)).length - 2)).filter
          fun s => (([some 1, none, some 0, none] : List (Option Nat)).getD
            s none).isSome).length) ∧
    (∃ m, (Gen.build_remap_and_map [some 1, none, some 0, none] 2).2 = some m ∧
      m.Perm (List.range 2)) :=
  ⟨(C10_remap_construction [some 1, none, some 0, none] 2 (by norm_num)
      (by decide) (by decide) (by decide)).1,
   (C10_remap_construction [some 1, none, some 0, none] 2 (by norm_num)
      (by decide) (by decide) (by decide)).2.2.2⟩
